import Mathlib

/-!
# AI Privacy Vault server: metadata synchronisation and the encryption envelope

A shallow embedding of `controllers/metadata.go`, `models/models.go`,
`utils/database.go` and `utils/crypto.go`.

* The SQLite database is a value of type `DB`: the two tables are lists of rows, in
  table order.  Each SQL statement of the handlers is a function on the table it
  touches.  Schema constraints of `createSchema` are part of those functions
  (`id TEXT PRIMARY KEY` rejects an `INSERT` whose id is already in the table,
  whoever owns it).
* A handler takes the database and returns the database after the request together
  with the HTTP answer.  Driver level failures are injected through a `Faults`
  oracle, one switch per call site; a failure of `rows.Next()` ends the loop over the
  rows without an error, as in the handler, which does not read `rows.Err()`.
* `tx := db.Begin()` works on a private copy; only `tx.Commit()` publishes it, and the
  deferred `tx.Rollback()` throws it away on every early `return`.
* Go's `int` is taken to be 64 bits wide (`wrapInt64`).
-/

namespace Vault

/-! ## models/models.go -/

/-- A `time.Time`, as an abstract instant. -/
abbrev Time := Nat

/-- Row of table `users` (`models.User`). -/
structure User where
  ID : Int
  Username : String
  PasswordHash : String
  DeviceID : String
  CreatedAt : Time
  LastSyncAt : Time
deriving DecidableEq, Repr

/-- Row of table `file_metadata` (`models.FileMetadata`). -/
structure FileMetadata where
  ID : String
  EncryptedData : String
  UserID : Int
  Version : Int
  LastModifiedAt : Time
  IsDeleted : Bool
deriving DecidableEq, Repr

/-- Body of `POST /api/sync` (`models.SyncRequest`). -/
structure SyncRequest where
  DeviceID : String
  Items : List FileMetadata
  SyncToken : String
deriving DecidableEq, Repr

/-- Answer of `POST /api/sync` (`models.SyncResponse`). -/
structure SyncResponse where
  UpdatedItems : List FileMetadata
  DeletedIDs : List String
  SyncToken : String
  Timestamp : Time
deriving DecidableEq, Repr

/-- An error answer `c.JSON(status, gin.H{"error": message})`. -/
structure HttpError where
  status : Nat
  message : String
deriving DecidableEq, Repr

/-! ## utils/database.go -/

/-- The database: the tables created by `createSchema`. -/
structure DB where
  users : List User
  file_metadata : List FileMetadata
deriving DecidableEq, Repr

/-- Function `GenerateSyncToken`: the timestamp argument is not used. -/
def GenerateSyncToken (userID : Int) (_timestamp : Time) : String :=
  "sync_token_" ++ toString userID

/-- Go `int` arithmetic on a 64 bit platform: two's complement wrap-around. -/
def wrapInt64 (x : Int) : Int := (x + 2 ^ 63) % 2 ^ 64 - 2 ^ 63

/-! ## The store: call sites, injected failures and SQL statements -/

/-- Call sites of the database driver inside one request.  The index is the position
of the client item (`select`, `insert`, `update`) or of the row being fetched by
`rows.Next()` (`next`) and read by `rows.Scan` (`scan`). -/
inductive Site where
  | begin
  | select (i : Nat)
  | insert (i : Nat)
  | update (i : Nat)
  | query
  | next (j : Nat)
  | scan (j : Nat)
  | stamp
  | commit
deriving DecidableEq, Repr

/-- Which driver calls fail for a reason of their own (I/O, lock, ...). -/
abbrev Faults := Site → Bool

/-- The driver never fails on its own. -/
def noFaults : Faults := fun _ => false

/-- Outcome of `QueryRow(...).Scan(...)`. -/
inductive RowResult (α : Type) where
  | row (a : α)
  | errNoRows
  | err
deriving DecidableEq, Repr

/-- The condition `WHERE id = ? AND user_id = ?`. -/
def matchesKey (id : String) (userID : Int) (r : FileMetadata) : Bool :=
  decide (r.ID = id ∧ r.UserID = userID)

/-- Statement `SELECT id, encrypted_data, version, last_modified_at, is_deleted FROM file_metadata
WHERE id = ? AND user_id = ?`, first row. -/
def selectItem (tbl : List FileMetadata) (id : String) (userID : Int) : Option FileMetadata :=
  tbl.find? (matchesKey id userID)

/-- Call of `QueryRow` followed by `Scan`. -/
def queryRow (fault : Bool) (tbl : List FileMetadata) (id : String) (userID : Int) :
    RowResult FileMetadata :=
  if fault then .err
  else match selectItem tbl id userID with
    | some r => .row r
    | none => .errNoRows

/-- Statement `INSERT INTO file_metadata (...) VALUES (...)`.  Column `id` is the primary key of the
table, so the statement is rejected when any row already carries that id. -/
def insertItem (fault : Bool) (tbl : List FileMetadata) (r : FileMetadata) :
    Option (List FileMetadata) :=
  if fault then none
  else if tbl.any (fun x => decide (x.ID = r.ID)) then none
  else some (tbl ++ [r])

/-- Statement `UPDATE file_metadata SET encrypted_data = ?, version = ?, last_modified_at = ?,
is_deleted = ? WHERE id = ? AND user_id = ?` -/
def updateItem (fault : Bool) (tbl : List FileMetadata) (data : String) (version : Int)
    (lastModifiedAt : Time) (isDeleted : Bool) (id : String) (userID : Int) :
    Option (List FileMetadata) :=
  if fault then none
  else some (tbl.map fun r =>
    if matchesKey id userID r then
      { r with EncryptedData := data, Version := version,
               LastModifiedAt := lastModifiedAt, IsDeleted := isDeleted }
    else r)

/-- Statement `UPDATE file_metadata SET version = ?, last_modified_at = ?, is_deleted = ?
WHERE id = ? AND user_id = ?` -/
def tombstoneItem (fault : Bool) (tbl : List FileMetadata) (version : Int)
    (lastModifiedAt : Time) (isDeleted : Bool) (id : String) (userID : Int) :
    Option (List FileMetadata) :=
  if fault then none
  else some (tbl.map fun r =>
    if matchesKey id userID r then
      { r with Version := version, LastModifiedAt := lastModifiedAt, IsDeleted := isDeleted }
    else r)

/-- Statement `SELECT ... FROM file_metadata WHERE user_id = ?` -/
def selectByUser (tbl : List FileMetadata) (userID : Int) : List FileMetadata :=
  tbl.filter (fun r => decide (r.UserID = userID))

/-- Statement `UPDATE users SET last_sync_at = ? WHERE id = ?`. -/
def stampUser (users : List User) (now : Time) (userID : Int) : List User :=
  users.map fun u => if u.ID = userID then { u with LastSyncAt := now } else u

/-! ## controllers/metadata.go -/

/-- Handler `AddMetadata`: `newID` is the value of `uuid.New().String()`, `body` the bound JSON
(`none` when binding fails). -/
def AddMetadata (f : Faults) (db : DB) (userID : Int) (body : Option FileMetadata)
    (newID : String) (now : Time) : DB × Except HttpError FileMetadata :=
  match body with
  | none => (db, .error ⟨400, "Invalid request"⟩)
  | some item =>
    let item : FileMetadata :=
      { item with UserID := userID, ID := newID, Version := 1, LastModifiedAt := now,
                  IsDeleted := false }
    match insertItem (f (.insert 0)) db.file_metadata item with
    | none => (db, .error ⟨500, "Failed to add metadata"⟩)
    | some tbl => ({ db with file_metadata := tbl }, .ok item)

/-- Handler `UpdateMetadata` for `PUT /api/metadata/:id`. -/
def UpdateMetadata (f : Faults) (db : DB) (userID : Int) (id : String)
    (body : Option FileMetadata) (now : Time) : DB × Except HttpError FileMetadata :=
  match body with
  | none => (db, .error ⟨400, "Invalid request"⟩)
  | some item =>
    match queryRow (f (.select 0)) db.file_metadata id userID with
    | .errNoRows => (db, .error ⟨404, "Metadata not found"⟩)
    | .err => (db, .error ⟨500, "Database error"⟩)
    | .row cur =>
      let currentVersion := cur.Version
      let item : FileMetadata :=
        { item with Version := wrapInt64 (currentVersion + 1), LastModifiedAt := now,
                    UserID := userID }
      match updateItem (f (.update 0)) db.file_metadata item.EncryptedData item.Version
          item.LastModifiedAt item.IsDeleted id userID with
      | none => (db, .error ⟨500, "Failed to update metadata"⟩)
      | some tbl => ({ db with file_metadata := tbl }, .ok item)

/-- Handler `DeleteMetadata` for `DELETE /api/metadata/:id`; the answer body is a fixed message. -/
def DeleteMetadata (f : Faults) (db : DB) (userID : Int) (id : String) (now : Time) :
    DB × Except HttpError String :=
  match queryRow (f (.select 0)) db.file_metadata id userID with
  | .errNoRows => (db, .error ⟨404, "Metadata not found"⟩)
  | .err => (db, .error ⟨500, "Database error"⟩)
  | .row cur =>
    let currentVersion := cur.Version
    match tombstoneItem (f (.update 0)) db.file_metadata (wrapInt64 (currentVersion + 1)) now
        true id userID with
    | none => (db, .error ⟨500, "Failed to delete metadata"⟩)
    | some tbl => ({ db with file_metadata := tbl }, .ok "Metadata deleted")

/-- The loop `for _, clientItem := range syncReq.Items` of `SyncMetadata`, run on the
transaction's view `tbl` of `file_metadata`; `i` is the index of the next item. -/
def syncItems (f : Faults) (userID : Int) :
    Nat → List FileMetadata → List FileMetadata → Except HttpError (List FileMetadata)
  | _, [], tbl => .ok tbl
  | i, clientItem :: rest, tbl =>
    match queryRow (f (.select i)) tbl clientItem.ID userID with
    | .errNoRows =>
      match insertItem (f (.insert i)) tbl
          { ID := clientItem.ID, EncryptedData := clientItem.EncryptedData, UserID := userID,
            Version := clientItem.Version, LastModifiedAt := clientItem.LastModifiedAt,
            IsDeleted := clientItem.IsDeleted } with
      | none => .error ⟨500, "Failed to insert client item"⟩
      | some tbl1 => syncItems f userID (i + 1) rest tbl1
    | .err => .error ⟨500, "Database error checking item"⟩
    | .row serverItem =>
      if clientItem.Version > serverItem.Version then
        match updateItem (f (.update i)) tbl clientItem.EncryptedData clientItem.Version
            clientItem.LastModifiedAt clientItem.IsDeleted clientItem.ID userID with
        | none => .error ⟨500, "Failed to update server item"⟩
        | some tbl1 => syncItems f userID (i + 1) rest tbl1
      else syncItems f userID (i + 1) rest tbl

/-- The loop `for rows.Next()` of `SyncMetadata`: every row is scanned, gets
`item.UserID = userID`, and is appended to `deletedIDs` or to `updatedItems`.  When the
driver fails while fetching row `j`, `rows.Next()` returns `false` like at the end of the
rows; the handler never reads `rows.Err()`, so the loop just ends with the lists built so
far. -/
def scanRows (f : Faults) (userID : Int) :
    Nat → List FileMetadata → List FileMetadata → List String →
      Except HttpError (List FileMetadata × List String)
  | _, [], updatedItems, deletedIDs => .ok (updatedItems, deletedIDs)
  | j, r :: rows, updatedItems, deletedIDs =>
    if f (.next j) then .ok (updatedItems, deletedIDs)
    else if f (.scan j) then .error ⟨500, "Error scanning rows"⟩
    else
      let item : FileMetadata :=
        { ID := r.ID, EncryptedData := r.EncryptedData, UserID := userID, Version := r.Version,
          LastModifiedAt := r.LastModifiedAt, IsDeleted := r.IsDeleted }
      if item.IsDeleted then scanRows f userID (j + 1) rows updatedItems (deletedIDs ++ [item.ID])
      else scanRows f userID (j + 1) rows (updatedItems ++ [item]) deletedIDs

/-- Body of `SyncMetadata` between `Begin` and `Commit`, on the transaction's copy `tx` of the
database: on success, the copy to be committed and the answer. -/
def syncTx (f : Faults) (tx : DB) (userID : Int) (syncReq : SyncRequest) (now : Time) :
    Except HttpError (DB × SyncResponse) :=
  match syncItems f userID 0 syncReq.Items tx.file_metadata with
  | .error e => .error e
  | .ok tbl =>
    if f .query then .error ⟨500, "Failed to query server items"⟩
    else match scanRows f userID 0 (selectByUser tbl userID) [] [] with
      | .error e => .error e
      | .ok (updatedItems, deletedIDs) =>
        if f .stamp then .error ⟨500, "Failed to update sync timestamp"⟩
        else if f .commit then .error ⟨500, "Failed to commit transaction"⟩
        else
          .ok ({ users := stampUser tx.users now userID, file_metadata := tbl },
               { UpdatedItems := updatedItems, DeletedIDs := deletedIDs,
                 SyncToken := GenerateSyncToken userID now, Timestamp := now })

/-- Handler `SyncMetadata` for `POST /api/sync`: `body` is the bound JSON (`none` when binding
fails), `now` the value of `time.Now()`.  Returns the database after the request and the
answer; every early `return` leaves the database as it was (deferred `tx.Rollback()`). -/
def SyncMetadata (f : Faults) (db : DB) (userID : Int) (body : Option SyncRequest)
    (now : Time) : DB × Except HttpError SyncResponse :=
  match body with
  | none => (db, .error ⟨400, "Invalid request"⟩)
  | some syncReq =>
    if f .begin then (db, .error ⟨500, "Failed to begin transaction"⟩)
    else match syncTx f db userID syncReq now with
      | .error e => (db, .error e)
      | .ok (tx, resp) => (tx, .ok resp)

/-! ## Auxiliary definitions used in the statements -/

/-- The row written by the `UPDATE` of the sync loop and of `UpdateMetadata`. -/
def overwrite (data : String) (version : Int) (lastModifiedAt : Time) (isDeleted : Bool)
    (id : String) (userID : Int) (r : FileMetadata) : FileMetadata :=
  if matchesKey id userID r then
    { r with EncryptedData := data, Version := version,
             LastModifiedAt := lastModifiedAt, IsDeleted := isDeleted }
  else r

/-- The row the sync loop inserts for a client item. -/
def clientRow (userID : Int) (c : FileMetadata) : FileMetadata :=
  { ID := c.ID, EncryptedData := c.EncryptedData, UserID := userID, Version := c.Version,
    LastModifiedAt := c.LastModifiedAt, IsDeleted := c.IsDeleted }

/-- What one successful pass of the loop body does to the table. -/
def SyncStep (userID : Int) (c : FileMetadata) (tbl tbl1 : List FileMetadata) : Prop :=
  (selectItem tbl c.ID userID = none ∧ (∀ x ∈ tbl, x.ID ≠ c.ID) ∧
      tbl1 = tbl ++ [clientRow userID c]) ∨
  (∃ s, selectItem tbl c.ID userID = some s ∧ c.Version > s.Version ∧
      tbl1 = tbl.map (overwrite c.EncryptedData c.Version c.LastModifiedAt c.IsDeleted
        c.ID userID)) ∨
  (∃ s, selectItem tbl c.ID userID = some s ∧ c.Version ≤ s.Version ∧ tbl1 = tbl)

/-- The rows that the loop `for rows.Next()` gets to see: those before the first failure of
`rows.Next()`, `j` being the index of the first row of the list. -/
def rowsRead (f : Faults) : Nat → List FileMetadata → List FileMetadata
  | _, [] => []
  | j, r :: rows => if f (.next j) then [] else r :: rowsRead f (j + 1) rows

/-- No call of `rows.Next()` fails. -/
def NextNeverFails (f : Faults) : Prop := ∀ j, f (.next j) = false

/-! ## utils/crypto.go

The envelope strings are Go strings, that is byte sequences.  The standard library is
outside the repository: `encoding/base64` (`StdEncoding`, padded, not strict) is modelled
below from its documented behaviour; the AEAD returned by `cipher.NewGCM` is a parameter
of `Encrypt` and `Decrypt`, and `aesGCM` further down is AES-GCM itself. -/

/-- A Go `byte`. -/
abbrev Byte := Fin 256

/-- A Go `[]byte`, or the bytes of a Go `string`. -/
abbrev Bytes := List Byte

/-- Go's conversion `byte(n)`. -/
def byte (n : Nat) : Byte := ⟨n % 256, Nat.mod_lt _ (by decide)⟩

/-- The bytes of an ASCII string literal. -/
def ascii (s : String) : Bytes := s.toList.map fun c => byte c.toNat

/-- The alphabet `encodeStd` of `base64.StdEncoding`. -/
def encodeStd : Bytes :=
  ascii "ABCDEFGHIJKLMNOPQRSTUVWXYZabcdefghijklmnopqrstuvwxyz0123456789+/"

/-- The padding `StdPadding`, the character `=`. -/
def padChar : Byte := byte 61

/-- The line feed `\n`. -/
def charLF : Byte := byte 10

/-- The carriage return `\r`. -/
def charCR : Byte := byte 13

/-- The character `enc.encode[v]` for a 6 bit value `v`. -/
def encodeChar (v : Nat) : Byte := encodeStd.getD v 0

/-- Position of `b` in an alphabet whose first character has index `i`. -/
def decodeMapFrom (b : Byte) : Bytes → Nat → Option Nat
  | [], _ => none
  | x :: xs, i => if x = b then some i else decodeMapFrom b xs (i + 1)

/-- The entry `enc.decodeMap[b]`; `none` stands for the entry `0xff` of a byte outside the alphabet. -/
def decodeMap (b : Byte) : Option Nat := decodeMapFrom b encodeStd 0

/-- Function `base64.StdEncoding.EncodeToString`. -/
def EncodeToString : Bytes → Bytes
  | b0 :: b1 :: b2 :: rest =>
    let val := b0.val * 65536 + b1.val * 256 + b2.val
    encodeChar (val / 262144 % 64) :: encodeChar (val / 4096 % 64) ::
      encodeChar (val / 64 % 64) :: encodeChar (val % 64) :: EncodeToString rest
  | [b0, b1] =>
    let val := b0.val * 65536 + b1.val * 256
    [encodeChar (val / 262144 % 64), encodeChar (val / 4096 % 64),
      encodeChar (val / 64 % 64), padChar]
  | [b0] =>
    let val := b0.val * 65536
    [encodeChar (val / 262144 % 64), encodeChar (val / 4096 % 64), padChar, padChar]
  | [] => []

/-- The loops `for si < len(src) && (src[si] == '\n' || src[si] == '\r') { si++ }` of the
decoder: how many bytes are skipped, and what is left. -/
def skipNewlines : Bytes → Nat × Bytes
  | [] => (0, [])
  | c :: rest =>
    if c = charLF ∨ c = charCR then ((skipNewlines rest).1 + 1, (skipNewlines rest).2)
    else (0, c :: rest)

/-- The decoder of `base64.StdEncoding` (`Decode` with `decodeQuantum`), one input byte at a
time.  `si` is the index of the next input byte, `j` the number of characters of the current
quantum read so far, `acc` their 6 bit values put together, `out` the bytes decoded so far.
The error is the offset of a `CorruptInputError`. -/
def decodeLoop : Bytes → Nat → Nat → Nat → Bytes → Except Nat Bytes
  | [], si, j, _, out => if j = 0 then .ok out else .error (si - j)
  | c :: rest, si, j, acc, out =>
    match decodeMap c with
    | some v =>
      if j = 3 then
        let val := acc * 64 + v
        decodeLoop rest (si + 1) 0 0 (out ++ [byte (val / 65536), byte (val / 256), byte val])
      else decodeLoop rest (si + 1) (j + 1) (acc * 64 + v) out
    | none =>
      if c = charLF ∨ c = charCR then decodeLoop rest (si + 1) j acc out
      else if c ≠ padChar then .error si
      else if j < 2 then .error si
      else if j = 2 then
        -- "==" is expected, the first "=" is already consumed
        match skipNewlines rest with
        | (_, []) => .error (si + 1 + rest.length)
        | (k, c1 :: rest1) =>
          if c1 ≠ padChar then .error (si + 1 + k - 1)
          else if (skipNewlines rest1).2 ≠ [] then
            .error (si + 1 + k + 1 + (skipNewlines rest1).1)
          else .ok (out ++ [byte (acc * 4096 / 65536)])
      else
        if (skipNewlines rest).2 ≠ [] then .error (si + 1 + (skipNewlines rest).1)
        else .ok (out ++ [byte (acc * 64 / 65536), byte (acc * 64 / 256)])

/-- Function `base64.StdEncoding.DecodeString`: the decoded bytes, or the offset of the
`CorruptInputError`. -/
def DecodeString (s : Bytes) : Except Nat Bytes := decodeLoop s 0 0 0 []

/-- The errors `Encrypt` and `Decrypt` return. -/
inductive CryptoError where
  /-- The `aes.KeySizeError` of `aes.NewCipher`. -/
  | keySize (n : Nat)
  /-- The error of `io.ReadFull(rand.Reader, nonce)`. -/
  | randomness
  /-- The `base64.CorruptInputError` of `DecodeString`. -/
  | corruptInput (offset : Nat)
  /-- The error `errors.New("ciphertext too short")`. -/
  | tooShort
  /-- The error of `aesgcm.Open`, "cipher: message authentication failed". -/
  | openFailed
deriving DecidableEq, Repr

/-- The `cipher.AEAD` returned by `cipher.NewGCM(block)`, used with empty additional
data: `Seal(nil, nonce, plaintext, nil)` and `Open(nil, nonce, ciphertext, nil)`. -/
structure AEAD where
  Seal : Bytes → Bytes → Bytes
  Open : Bytes → Bytes → Option Bytes

/-- The struct `CryptoService`. -/
structure CryptoService where
  key : Bytes

/-- Function `NewCryptoService`: the key is `[]byte(key)`. -/
def NewCryptoService (key : Bytes) : CryptoService := { key := key }

/-- Key sizes: `aes.NewCipher` accepts keys of 16, 24 or 32 bytes. -/
def aesKeySize (n : Nat) : Bool := decide (n = 16 ∨ n = 24 ∨ n = 32)

/-- Call `io.ReadFull(rand.Reader, buf)` for a buffer of `n` bytes, `rand` being the bytes the
reader can still deliver. -/
def readFull (rand : Bytes) (n : Nat) : Option Bytes :=
  if rand.length < n then none else some (rand.take n)

/-- Method `CryptoService.Encrypt`; `gcm key` is the AEAD of `cipher.NewGCM(aes.NewCipher(key))`. -/
def Encrypt (gcm : Bytes → AEAD) (cs : CryptoService) (rand : Bytes) (plaintext : Bytes) :
    Except CryptoError Bytes :=
  if aesKeySize cs.key.length then
    match readFull rand 12 with
    | none => .error .randomness
    | some nonce =>
      let aesgcm := gcm cs.key
      let ciphertext := aesgcm.Seal nonce plaintext
      let encrypted := nonce ++ ciphertext
      .ok (EncodeToString encrypted)
  else .error (.keySize cs.key.length)

/-- Method `CryptoService.Decrypt`. -/
def Decrypt (gcm : Bytes → AEAD) (cs : CryptoService) (encryptedStr : Bytes) :
    Except CryptoError Bytes :=
  match DecodeString encryptedStr with
  | .error offset => .error (.corruptInput offset)
  | .ok encrypted =>
    if encrypted.length < 12 then .error .tooShort
    else
      let nonce := encrypted.take 12
      let ciphertext := encrypted.drop 12
      if aesKeySize cs.key.length then
        let aesgcm := gcm cs.key
        match aesgcm.Open nonce ciphertext with
        | none => .error .openFailed
        | some plaintext => .ok plaintext
      else .error (.keySize cs.key.length)

/-- One bit of a string flipped: bit `k` of the byte at index `i`. -/
def flipBit : Bytes → Nat → Nat → Bytes
  | [], _, _ => []
  | b :: bs, 0, k => byte (b.val ^^^ 2 ^ k) :: bs
  | b :: bs, i + 1, k => b :: flipBit bs i k

/-! ## AES-GCM

The cipher behind `cipher.NewGCM(aes.NewCipher(key))`: AES as in FIPS 197 and GCM as in NIST
SP 800-38D, for the 12 byte nonce, the 16 byte tag and the empty additional data that
`Encrypt` and `Decrypt` use.  Bytes are natural numbers below 256 here. -/

/-- The AES S-box (FIPS 197, figure 7). -/
def aesSbox : List Nat :=
  [
    99, 124, 119, 123, 242, 107, 111, 197, 48, 1, 103, 43, 254, 215, 171, 118,
    202, 130, 201, 125, 250, 89, 71, 240, 173, 212, 162, 175, 156, 164, 114, 192,
    183, 253, 147, 38, 54, 63, 247, 204, 52, 165, 229, 241, 113, 216, 49, 21,
    4, 199, 35, 195, 24, 150, 5, 154, 7, 18, 128, 226, 235, 39, 178, 117,
    9, 131, 44, 26, 27, 110, 90, 160, 82, 59, 214, 179, 41, 227, 47, 132,
    83, 209, 0, 237, 32, 252, 177, 91, 106, 203, 190, 57, 74, 76, 88, 207,
    208, 239, 170, 251, 67, 77, 51, 133, 69, 249, 2, 127, 80, 60, 159, 168,
    81, 163, 64, 143, 146, 157, 56, 245, 188, 182, 218, 33, 16, 255, 243, 210,
    205, 12, 19, 236, 95, 151, 68, 23, 196, 167, 126, 61, 100, 93, 25, 115,
    96, 129, 79, 220, 34, 42, 144, 136, 70, 238, 184, 20, 222, 94, 11, 219,
    224, 50, 58, 10, 73, 6, 36, 92, 194, 211, 172, 98, 145, 149, 228, 121,
    231, 200, 55, 109, 141, 213, 78, 169, 108, 86, 244, 234, 101, 122, 174, 8,
    186, 120, 37, 46, 28, 166, 180, 198, 232, 221, 116, 31, 75, 189, 139, 138,
    112, 62, 181, 102, 72, 3, 246, 14, 97, 53, 87, 185, 134, 193, 29, 158,
    225, 248, 152, 17, 105, 217, 142, 148, 155, 30, 135, 233, 206, 85, 40, 223,
    140, 161, 137, 13, 191, 230, 66, 104, 65, 153, 45, 15, 176, 84, 187, 22
  ]

/-- The S-box applied to one byte. -/
def subByte (a : Nat) : Nat := aesSbox.getD a 0

/-- Multiplication by `x` in the field of AES: a left shift, reduced by `0x1b`. -/
def xtime (a : Nat) : Nat := if a < 128 then 2 * a else (2 * a - 256) ^^^ 27

/-- Bytewise exclusive or; the result is as long as the shorter list. -/
def xorBytes (a b : List Nat) : List Nat := List.zipWith (fun x y => x ^^^ y) a b

/-- A byte string cut into words of four bytes. -/
def words4 : List Nat → List (List Nat)
  | a :: b :: c :: d :: rest => [a, b, c, d] :: words4 rest
  | _ => []

/-- The words of a list put one after the other. -/
def flattenWords (w : List (List Nat)) : List Nat := w.foldr (fun a b => a ++ b) []

/-- The word rotation `RotWord` of the key expansion. -/
def rotWord : List Nat → List Nat
  | a :: rest => rest ++ [a]
  | [] => []

/-- The key expansion loop: `n` more words are appended to the `i` words of `w`; `nk` is the
number of words of the key and `rcon` the current round constant. -/
def expandKeyLoop (nk : Nat) : Nat → Nat → Nat → List (List Nat) → List (List Nat)
  | 0, _, _, w => w
  | n + 1, i, rcon, w =>
    let prev := w.getD (i - 1) []
    let back := w.getD (i - nk) []
    if i % nk = 0 then
      expandKeyLoop nk n (i + 1) (xtime rcon)
        (w ++ [xorBytes back (xorBytes ((rotWord prev).map subByte) [rcon, 0, 0, 0])])
    else if 6 < nk ∧ i % nk = 4 then
      expandKeyLoop nk n (i + 1) rcon (w ++ [xorBytes back (prev.map subByte)])
    else expandKeyLoop nk n (i + 1) rcon (w ++ [xorBytes back prev])

/-- The key schedule: `4 * (rounds + 1)` words, with `rounds = nk + 6`. -/
def expandKey (key : List Nat) : List (List Nat) :=
  expandKeyLoop (key.length / 4) (4 * (key.length / 4 + 7) - key.length / 4)
    (key.length / 4) 1 (words4 key)

/-- The 16 bytes of round key `r`. -/
def roundKey (w : List (List Nat)) (r : Nat) : List Nat :=
  flattenWords ((w.drop (4 * r)).take 4)

/-- The step `ShiftRows`; byte `i` of the state is in row `i % 4` and column `i / 4`. -/
def shiftRows (s : List Nat) : List Nat :=
  (List.range 16).map fun i => s.getD (i % 4 + 4 * ((i / 4 + i % 4) % 4)) 0

/-- One column of `MixColumns`. -/
def mixColumn : List Nat → List Nat
  | [a0, a1, a2, a3] =>
    [xtime a0 ^^^ (xtime a1 ^^^ a1) ^^^ a2 ^^^ a3,
     a0 ^^^ xtime a1 ^^^ (xtime a2 ^^^ a2) ^^^ a3,
     a0 ^^^ a1 ^^^ xtime a2 ^^^ (xtime a3 ^^^ a3),
     (xtime a0 ^^^ a0) ^^^ a1 ^^^ a2 ^^^ xtime a3]
  | other => other

/-- The step `MixColumns`. -/
def mixColumns (s : List Nat) : List Nat := flattenWords ((words4 s).map mixColumn)

/-- The rounds `r, r + 1, ..., nr` of the cipher, `n` of them; the last one has no
`MixColumns`. -/
def aesRounds (w : List (List Nat)) (nr : Nat) : Nat → Nat → List Nat → List Nat
  | 0, _, s => s
  | n + 1, r, s =>
    let t := shiftRows (s.map subByte)
    aesRounds w nr n (r + 1) (xorBytes (if r < nr then mixColumns t else t) (roundKey w r))

/-- Encryption of one 16 byte block under the expanded key `w` of a key of `nk` words. -/
def aesEncryptBlock (w : List (List Nat)) (nk : Nat) (block : List Nat) : List Nat :=
  aesRounds w (nk + 6) (nk + 6) 1 (xorBytes block (roundKey w 0))

/-- The number a byte string denotes, most significant byte first. -/
def beNat (bs : List Nat) : Nat := bs.foldl (fun a b => a * 256 + b) 0

/-- The `len` bytes of a number, most significant byte first. -/
def natBE (len n : Nat) : List Nat :=
  (List.range len).map fun i => n / 256 ^ (len - 1 - i) % 256

/-- The loop of the multiplication in GF(2^128) as GCM defines it: bit `i` of `x`, counted
from the most significant one, decides whether `v` is added to `z`; `v` is then multiplied
by the field's `x`. -/
def gfMulLoop (x : Nat) : Nat → Nat → Nat → Nat → Nat
  | 0, _, z, _ => z
  | n + 1, i, z, v =>
    gfMulLoop x n (i + 1) (if x / 2 ^ (127 - i) % 2 = 1 then z ^^^ v else z)
      (if v % 2 = 1 then (v / 2) ^^^ (225 * 2 ^ 120) else v / 2)

/-- Multiplication in GF(2^128). -/
def gfMul (x y : Nat) : Nat := gfMulLoop x 128 0 0 y

/-- A byte string cut into blocks of 16 bytes, the last one possibly shorter; `n` bounds the
number of blocks. -/
def blocks16 : Nat → List Nat → List (List Nat)
  | 0, _ => []
  | n + 1, l => if l = [] then [] else l.take 16 :: blocks16 n (l.drop 16)

/-- The function `GHASH` for empty additional data: the zero-filled blocks of the
ciphertext, then the block with the two bit lengths. -/
def ghash (h : Nat) (ct : List Nat) : Nat :=
  gfMul (((blocks16 ct.length ct).foldl
    (fun y blk => gfMul (y ^^^ beNat (blk ++ List.replicate (16 - blk.length) 0)) h) 0) ^^^
      (ct.length * 8)) h

/-- Counter mode from counter block `ctr` on: block `k` of the data is combined with the
encryption of the nonce followed by the 32 bit counter `ctr + k`. -/
def gcmCounterMode (w : List (List Nat)) (nk : Nat) (nonce : List Nat) :
    Nat → List (List Nat) → List Nat
  | _, [] => []
  | ctr, blk :: rest =>
    xorBytes blk (aesEncryptBlock w nk (nonce ++ natBE 4 (ctr % 2 ^ 32))) ++
      gcmCounterMode w nk nonce (ctr + 1) rest

/-- The 16 byte tag of a ciphertext under a nonce. -/
def gcmTag (w : List (List Nat)) (nk : Nat) (nonce ct : List Nat) : List Nat :=
  natBE 16 (ghash (beNat (aesEncryptBlock w nk (List.replicate 16 0))) ct ^^^
    beNat (aesEncryptBlock w nk (nonce ++ [0, 0, 0, 1])))

/-- The AEAD `cipher.NewGCM(aes.NewCipher(key))` for a key of 16, 24 or 32 bytes. -/
def aesGCM (key : Bytes) : AEAD where
  Seal nonce plaintext :=
    let w := expandKey (key.map (·.val))
    let nk := key.length / 4
    let n := nonce.map (·.val)
    let ct := gcmCounterMode w nk n 2 (blocks16 plaintext.length (plaintext.map (·.val)))
    (ct ++ gcmTag w nk n ct).map byte
  Open nonce c :=
    if c.length < 16 then none
    else
      let w := expandKey (key.map (·.val))
      let nk := key.length / 4
      let n := nonce.map (·.val)
      let ct := (c.take (c.length - 16)).map (·.val)
      let tag := (c.drop (c.length - 16)).map (·.val)
      if gcmTag w nk n ct = tag then
        some ((gcmCounterMode w nk n 2 (blocks16 ct.length ct)).map byte)
      else none

/-- The two ingredients of a GCM instance: byte `i` of the counter mode key stream for a
nonce, and the authentication tag of nonce and ciphertext. -/
structure GCMParts where
  keystream : Bytes → Nat → Byte
  tag : Bytes → Bytes → Bytes

/-- A tag cut or zero-filled to the 16 bytes of GCM's tag. -/
def tag16 (t : Bytes) : Bytes := (t ++ List.replicate 16 0).take 16

/-- Exclusive or of `bs` with the key stream from index `i` on. -/
def xorStream (ks : Nat → Byte) : Nat → Bytes → Bytes
  | _, [] => []
  | i, b :: bs => byte (b.val ^^^ (ks i).val) :: xorStream ks (i + 1) bs

/-- An AEAD of the shape of GCM: the plaintext is encrypted in counter mode and the 16 byte
tag is appended; opening checks the tag and decrypts. -/
def gcmOf (p : GCMParts) : AEAD where
  Seal nonce plaintext :=
    let ct := xorStream (p.keystream nonce) 0 plaintext
    ct ++ tag16 (p.tag nonce ct)
  Open nonce c :=
    if c.length < 16 then none
    else
      let ct := c.take (c.length - 16)
      if tag16 (p.tag nonce ct) = c.drop (c.length - 16) then
        some (xorStream (p.keystream nonce) 0 ct)
      else none

/-- A small GCM-shaped instance for the examples: the key stream and the tag are sums of
key, nonce and data bytes. -/
def exGCM (key : Bytes) : AEAD :=
  gcmOf { keystream := fun nonce i => byte ((key.map (·.val)).sum + (nonce.map (·.val)).sum + i),
          tag := fun nonce ct =>
            List.replicate 16 (byte ((key.map (·.val)).sum + (nonce.map (·.val)).sum +
              (ct.map (·.val)).sum)) }

/-- A 16 byte key for the examples. -/
def exKey : CryptoService := NewCryptoService (List.replicate 16 (byte 7))

/-- Twelve random bytes for the examples. -/
def exRand : Bytes := [1, 2, 3, 4, 5, 6, 7, 8, 9, 10, 11, 12]

/-- The envelope that `Encrypt` returns with AES-GCM for the empty plaintext under `exKey`
with the nonce `exRand`: the 12 nonce bytes and the 16 tag bytes, in base64. -/
def exEnvelope : Bytes := ascii "AQIDBAUGBwgJCgsMBWAQZOWALEv1IRZBReQxhg=="

/-- How many bytes of a string are characters of the base64 alphabet. -/
def alphabetCount : Bytes → Nat
  | [] => 0
  | c :: rest => (if (decodeMap c).isSome then 1 else 0) + alphabetCount rest

/-! ## Example stores and requests -/

/-- Two users; user 1 owns `X` (version 3) and the tombstone `Z` (version 2), user 2 owns `Y`. -/
def exDB : DB :=
  { users := [⟨1, "ann", "h1", "dev1", 0, 0⟩, ⟨2, "bob", "h2", "dev2", 0, 0⟩],
    file_metadata :=
      [⟨"X", "E3", 1, 3, 10, false⟩, ⟨"Z", "EZ", 1, 2, 11, true⟩, ⟨"Y", "EY", 2, 1, 12, false⟩] }

/-- A sync request carrying the given items. -/
def exReq (items : List FileMetadata) : SyncRequest :=
  { DeviceID := "dev1", Items := items, SyncToken := "" }

/-- User 1 exists and owns nothing. -/
def exEmptyDB : DB :=
  { users := [⟨1, "ann", "h1", "dev1", 0, 0⟩], file_metadata := [] }

/-- User 1 owns `X` at the largest version a Go `int` holds. -/
def exMaxDB : DB :=
  { users := [⟨1, "ann", "h1", "dev1", 0, 5⟩],
    file_metadata := [⟨"X", "E", 1, 9223372036854775807, 10, false⟩] }

/-- One request to the metadata routes, with the driver failures that occur during it. -/
inductive Call where
  | add (f : Faults) (userID : Int) (body : Option FileMetadata) (newID : String) (now : Time)
  | update (f : Faults) (userID : Int) (id : String) (body : Option FileMetadata) (now : Time)
  | delete (f : Faults) (userID : Int) (id : String) (now : Time)
  | sync (f : Faults) (userID : Int) (body : Option SyncRequest) (now : Time)

/-- The database after one request. -/
def Call.run (db : DB) : Call → DB
  | .add f userID body newID now => (AddMetadata f db userID body newID now).1
  | .update f userID id body now => (UpdateMetadata f db userID id body now).1
  | .delete f userID id now => (DeleteMetadata f db userID id now).1
  | .sync f userID body now => (SyncMetadata f db userID body now).1

/-- The database after a sequence of requests, handled one after the other. -/
def runCalls (db : DB) (calls : List Call) : DB := calls.foldl Call.run db

/-- A request is in range for a database when, for a sync, every submitted item has a
version of at least 1 and, for an update or a delete, the addressed row (if there is one)
has a version below the largest `int`. -/
def Call.inRange (db : DB) : Call → Bool
  | .add _ _ _ _ _ => true
  | .update _ userID id _ _ =>
    match selectItem db.file_metadata id userID with
    | some r => decide (r.Version < 2 ^ 63 - 1)
    | none => true
  | .delete _ userID id _ =>
    match selectItem db.file_metadata id userID with
    | some r => decide (r.Version < 2 ^ 63 - 1)
    | none => true
  | .sync _ _ body _ =>
    match body with
    | some req => req.Items.all fun c => decide (1 ≤ c.Version)
    | none => true

/-- Every request of the sequence is in range for the database it meets. -/
def allInRange : DB → List Call → Bool
  | _, [] => true
  | db, c :: cs => c.inRange db && allInRange (c.run db) cs

/-- Every stored row has a version of at least 1. -/
def AllPositive (tbl : List FileMetadata) : Prop := ∀ r ∈ tbl, 1 ≤ r.Version

/-- The number a string of decimal digits denotes. -/
def decimalValue (cs : List Char) : Nat :=
  cs.foldl (fun a c => a * 10 + (c.toNat - 48)) 0

theorem matchesKey_iff (id : String) (userID : Int) (r : FileMetadata) :
    matchesKey id userID r = true ↔ r.ID = id ∧ r.UserID = userID := by
  simp [matchesKey]

theorem selectItem_some {tbl : List FileMetadata} {id : String} {userID : Int}
    {r : FileMetadata} (h : selectItem tbl id userID = some r) :
    r ∈ tbl ∧ r.ID = id ∧ r.UserID = userID := by
  unfold selectItem at h
  exact ⟨List.mem_of_find?_eq_some h, (matchesKey_iff _ _ _).1 (List.find?_some h)⟩

theorem queryRow_row {fault : Bool} {tbl : List FileMetadata} {id : String} {userID : Int}
    {r : FileMetadata} (h : queryRow fault tbl id userID = .row r) :
    fault = false ∧ selectItem tbl id userID = some r := by
  unfold queryRow at h
  cases fault <;> simp at h ⊢
  cases hs : selectItem tbl id userID <;> simp [hs] at h
  exact congrArg _ h

theorem queryRow_errNoRows {fault : Bool} {tbl : List FileMetadata} {id : String}
    {userID : Int} (h : queryRow fault tbl id userID = .errNoRows) :
    fault = false ∧ selectItem tbl id userID = none := by
  unfold queryRow at h
  cases fault <;> simp at h ⊢
  cases hs : selectItem tbl id userID <;> simp [hs] at h
  rfl

theorem insertItem_some {fault : Bool} {tbl tbl1 : List FileMetadata} {r : FileMetadata}
    (h : insertItem fault tbl r = some tbl1) :
    fault = false ∧ (∀ x ∈ tbl, x.ID ≠ r.ID) ∧ tbl1 = tbl ++ [r] := by
  unfold insertItem at h
  cases fault <;> simp at h ⊢
  exact ⟨h.1, h.2.symm⟩

theorem updateItem_some {fault : Bool} {tbl tbl1 : List FileMetadata} {data : String}
    {version : Int} {lastModifiedAt : Time} {isDeleted : Bool} {id : String} {userID : Int}
    (h : updateItem fault tbl data version lastModifiedAt isDeleted id userID = some tbl1) :
    fault = false ∧
      tbl1 = tbl.map (overwrite data version lastModifiedAt isDeleted id userID) := by
  unfold updateItem at h
  cases fault <;> simp at h ⊢
  rw [← h]
  apply List.map_congr_left
  intro r _
  rfl

theorem overwrite_ID (data : String) (version : Int) (t : Time) (d : Bool) (id : String)
    (userID : Int) (r : FileMetadata) : (overwrite data version t d id userID r).ID = r.ID := by
  unfold overwrite; split <;> rfl

theorem overwrite_UserID (data : String) (version : Int) (t : Time) (d : Bool) (id : String)
    (userID : Int) (r : FileMetadata) :
    (overwrite data version t d id userID r).UserID = r.UserID := by
  unfold overwrite; split <;> rfl

theorem overwrite_of_ne (data : String) (version : Int) (t : Time) (d : Bool) (id : String)
    (userID : Int) (r : FileMetadata) (h : ¬ (r.ID = id ∧ r.UserID = userID)) :
    overwrite data version t d id userID r = r := by
  unfold overwrite
  rw [if_neg]
  rw [matchesKey_iff]; exact h

theorem matchesKey_overwrite (data : String) (version : Int) (t : Time) (d : Bool)
    (id id1 : String) (userID userID1 : Int) (r : FileMetadata) :
    matchesKey id1 userID1 (overwrite data version t d id userID r) = matchesKey id1 userID1 r := by
  simp [matchesKey, overwrite_ID, overwrite_UserID]

/-! ## One pass of the sync loop -/

theorem syncItems_nil (f : Faults) (userID : Int) (i : Nat) (tbl : List FileMetadata) :
    syncItems f userID i [] tbl = .ok tbl := by
  simp [syncItems]

theorem syncItems_cons {f : Faults} {userID : Int} {i : Nat} {c : FileMetadata}
    {cs tbl tbl2 : List FileMetadata}
    (h : syncItems f userID i (c :: cs) tbl = .ok tbl2) :
    ∃ tbl1, SyncStep userID c tbl tbl1 ∧ syncItems f userID (i + 1) cs tbl1 = .ok tbl2 := by
  rw [syncItems] at h
  cases hq : queryRow (f (.select i)) tbl c.ID userID with
  | errNoRows =>
    rw [hq] at h
    have hsel := (queryRow_errNoRows hq).2
    simp only at h
    cases hi : insertItem (f (.insert i)) tbl
        { ID := c.ID, EncryptedData := c.EncryptedData, UserID := userID,
          Version := c.Version, LastModifiedAt := c.LastModifiedAt,
          IsDeleted := c.IsDeleted } with
    | none => rw [hi] at h; simp at h
    | some tbl1 =>
      rw [hi] at h
      obtain ⟨_, hfresh, heq⟩ := insertItem_some hi
      exact ⟨tbl1, Or.inl ⟨hsel, hfresh, heq⟩, h⟩
  | err => rw [hq] at h; simp at h
  | row s =>
    rw [hq] at h
    have hsel := (queryRow_row hq).2
    simp only at h
    by_cases hv : c.Version > s.Version
    · rw [if_pos hv] at h
      cases hu : updateItem (f (.update i)) tbl c.EncryptedData c.Version c.LastModifiedAt
          c.IsDeleted c.ID userID with
      | none => rw [hu] at h; simp at h
      | some tbl1 =>
        rw [hu] at h
        exact ⟨tbl1, Or.inr (Or.inl ⟨s, hsel, hv, (updateItem_some hu).2⟩), h⟩
    · rw [if_neg hv] at h
      exact ⟨tbl, Or.inr (Or.inr ⟨s, hsel, not_lt.1 hv, rfl⟩), h⟩

/-- A property of tables that every pass of the loop body keeps is kept by the loop. -/
theorem syncItems_induct {f : Faults} {userID : Int} (P : List FileMetadata → Prop)
    (items : List FileMetadata)
    (hstep : ∀ c ∈ items, ∀ tbl tbl1, SyncStep userID c tbl tbl1 → P tbl → P tbl1) :
    ∀ (i : Nat) (tbl tbl2 : List FileMetadata),
      syncItems f userID i items tbl = .ok tbl2 → P tbl → P tbl2 := by
  induction items with
  | nil =>
    intro i tbl tbl2 h hP
    rw [syncItems_nil] at h
    cases h
    exact hP
  | cons c cs ih =>
    intro i tbl tbl2 h hP
    obtain ⟨tbl1, hs, hrest⟩ := syncItems_cons h
    exact ih (fun c1 hc1 => hstep c1 (List.mem_cons_of_mem _ hc1)) (i + 1) tbl1 tbl2 hrest
      (hstep c (List.mem_cons_self _ _) tbl tbl1 hs hP)

theorem selectByUser_overwrite (data : String) (version : Int) (t : Time) (d : Bool)
    (id : String) (userID other : Int) (hne : userID ≠ other) (tbl : List FileMetadata) :
    selectByUser (tbl.map (overwrite data version t d id userID)) other =
      selectByUser tbl other := by
  induction tbl with
  | nil => rfl
  | cons r rs ih =>
    unfold selectByUser at ih ⊢
    simp only [List.map_cons, List.filter_cons, overwrite_UserID]
    by_cases hr : r.UserID = other
    · have : overwrite data version t d id userID r = r :=
        overwrite_of_ne _ _ _ _ _ _ _ (fun h => hne (h.2.symm.trans hr))
      simp [hr, this, ih]
    · simp [hr, ih]

/-- One pass of the loop body leaves the rows of every other user as they were. -/
theorem SyncStep.frame {userID other : Int} (hne : userID ≠ other) {c : FileMetadata}
    {tbl tbl1 : List FileMetadata} (h : SyncStep userID c tbl tbl1) :
    selectByUser tbl1 other = selectByUser tbl other := by
  rcases h with ⟨_, _, rfl⟩ | ⟨s, _, _, rfl⟩ | ⟨s, _, _, rfl⟩
  · simp [selectByUser, List.filter_append, clientRow, hne]
  · exact selectByUser_overwrite _ _ _ _ _ _ _ hne _
  · rfl

/-- One pass of the loop body keeps the primary key `id` free of duplicates. -/
theorem SyncStep.nodup {userID : Int} {c : FileMetadata} {tbl tbl1 : List FileMetadata}
    (h : SyncStep userID c tbl tbl1) (hnd : (tbl.map (·.ID)).Nodup) :
    (tbl1.map (·.ID)).Nodup := by
  rcases h with ⟨_, hfresh, rfl⟩ | ⟨s, _, _, rfl⟩ | ⟨s, _, _, rfl⟩
  · rw [List.map_append, List.nodup_append]
    refine ⟨hnd, by simp, ?_⟩
    intro a ha hb
    simp only [List.map_cons, List.map_nil, List.mem_singleton, clientRow] at hb
    obtain ⟨x, hx, rfl⟩ := List.mem_map.1 ha
    exact hfresh x hx hb
  · have : (tbl.map (overwrite c.EncryptedData c.Version c.LastModifiedAt c.IsDeleted
        c.ID userID)).map (·.ID) = tbl.map (·.ID) := by
      rw [List.map_map]
      apply List.map_congr_left
      intro r _
      exact overwrite_ID _ _ _ _ _ _ _
    rw [this]; exact hnd
  · exact hnd

theorem selectItem_append_of_some {tbl : List FileMetadata} {id : String} {userID : Int}
    {r : FileMetadata} (h : selectItem tbl id userID = some r) (extra : List FileMetadata) :
    selectItem (tbl ++ extra) id userID = some r := by
  unfold selectItem at h ⊢
  rw [List.find?_append, h]; rfl

theorem selectItem_overwrite (data : String) (version : Int) (t : Time) (d : Bool)
    (id id1 : String) (userID userID1 : Int) (tbl : List FileMetadata) :
    selectItem (tbl.map (overwrite data version t d id userID)) id1 userID1 =
      (selectItem tbl id1 userID1).map (overwrite data version t d id userID) := by
  unfold selectItem
  rw [List.find?_map]
  congr 1
  apply congrArg (fun p => List.find? p tbl)
  funext r
  exact matchesKey_overwrite _ _ _ _ _ _ _ _ _

/-- One pass of the loop body for an item that does not outrank the stored row with key
`(id, userID)` leaves that row as it is. -/
theorem SyncStep.keeps {userID : Int} {c : FileMetadata} {tbl tbl1 : List FileMetadata}
    (h : SyncStep userID c tbl tbl1) {id : String} {r : FileMetadata}
    (hr : selectItem tbl id userID = some r) (hc : c.ID = id → c.Version ≤ r.Version) :
    selectItem tbl1 id userID = some r := by
  rcases h with ⟨_, _, rfl⟩ | ⟨s, hs, hv, rfl⟩ | ⟨s, _, _, rfl⟩
  · exact selectItem_append_of_some hr _
  · rw [selectItem_overwrite, hr, Option.map_some']
    congr 1
    apply overwrite_of_ne
    rintro ⟨hid, _⟩
    have hid1 : c.ID = id := hid ▸ (selectItem_some hr).2.1 ▸ rfl
    subst hid1
    rw [hs] at hr
    cases hr
    exact absurd (hc rfl) (not_le.2 hv)
  · exact hr

/-- One pass of the loop body never lowers the version of a stored row, whoever owns it,
and never removes the row. -/
theorem SyncStep.mono {userID : Int} {c : FileMetadata} {tbl tbl1 : List FileMetadata}
    (h : SyncStep userID c tbl tbl1) {id : String} {owner : Int} {r : FileMetadata}
    (hr : selectItem tbl id owner = some r) :
    ∃ r1, selectItem tbl1 id owner = some r1 ∧ r.Version ≤ r1.Version := by
  rcases h with ⟨_, _, rfl⟩ | ⟨s, hs, hv, rfl⟩ | ⟨s, _, _, rfl⟩
  · exact ⟨r, selectItem_append_of_some hr _, le_refl _⟩
  · rw [selectItem_overwrite, hr, Option.map_some']
    refine ⟨_, rfl, ?_⟩
    unfold overwrite
    split
    · rename_i hm
      obtain ⟨h1, h2⟩ := (matchesKey_iff _ _ _).1 hm
      obtain ⟨_, h3, h4⟩ := selectItem_some hr
      have hid : c.ID = id := h1.symm.trans h3
      have hu : userID = owner := h2.symm.trans h4
      subst hid; subst hu
      rw [hs] at hr
      cases hr
      exact le_of_lt hv
    · exact le_refl _
  · exact ⟨r, hr, le_refl _⟩

/-- One pass of the loop body for an item with another id leaves the row in the table. -/
theorem SyncStep.mem_of_ne {userID : Int} {c : FileMetadata} {tbl tbl1 : List FileMetadata}
    (h : SyncStep userID c tbl tbl1) {r : FileMetadata} (hr : r ∈ tbl) (hne : c.ID ≠ r.ID) :
    r ∈ tbl1 := by
  rcases h with ⟨_, _, rfl⟩ | ⟨s, _, _, rfl⟩ | ⟨s, _, _, rfl⟩
  · exact List.mem_append_left _ hr
  · refine List.mem_map.2 ⟨r, hr, overwrite_of_ne _ _ _ _ _ _ _ ?_⟩
    rintro ⟨hid, _⟩
    exact hne hid.symm
  · exact hr

/-! ## The snapshot and the whole handler -/

theorem clientRow_self {userID : Int} {r : FileMetadata} (h : r.UserID = userID) :
    clientRow userID r = r := by
  cases r; simp_all [clientRow]

theorem rowsRead_subset (f : Faults) :
    ∀ (rows : List FileMetadata) (j : Nat), ∀ r ∈ rowsRead f j rows, r ∈ rows := by
  intro rows
  induction rows with
  | nil => intro j r hr; simp [rowsRead] at hr
  | cons x xs ih =>
    intro j r hr
    rw [rowsRead] at hr
    cases hf : f (.next j)
    · simp only [hf, Bool.false_eq_true, if_false, List.mem_cons] at hr
      rcases hr with rfl | hr
      · exact List.mem_cons_self _ _
      · exact List.mem_cons_of_mem _ (ih _ _ hr)
    · simp [hf] at hr

theorem rowsRead_complete {f : Faults} (hnext : NextNeverFails f) :
    ∀ (rows : List FileMetadata) (j : Nat), rowsRead f j rows = rows := by
  intro rows
  induction rows with
  | nil => intro j; rfl
  | cons x xs ih =>
    intro j
    rw [rowsRead, hnext j, ih]
    rfl

theorem noFaults_next : NextNeverFails noFaults := fun _ => rfl

theorem scanRows_ok {f : Faults} {userID : Int} :
    ∀ (rows : List FileMetadata) (j : Nat) (u : List FileMetadata) (d : List String)
      (u1 : List FileMetadata) (d1 : List String),
      scanRows f userID j rows u d = .ok (u1, d1) →
        u1 = u ++ ((rowsRead f j rows).filter (fun r => !r.IsDeleted)).map
          (clientRow userID) ∧
        d1 = d ++ ((rowsRead f j rows).filter (fun r => r.IsDeleted)).map (·.ID) := by
  intro rows
  induction rows with
  | nil =>
    intro j u d u1 d1 h
    simp [scanRows] at h
    simp [h.1, h.2, rowsRead]
  | cons r rs ih =>
    intro j u d u1 d1 h
    rw [scanRows] at h
    rw [rowsRead]
    cases hn : f (.next j)
    swap
    · simp only [hn, if_true] at h
      obtain ⟨rfl, rfl⟩ := Prod.mk.inj (Except.ok.inj h)
      simp
    simp only [hn, Bool.false_eq_true, if_false] at h ⊢
    cases hf : f (.scan j)
    · simp only [hf] at h
      cases hd : r.IsDeleted
      · simp only [hd] at h
        obtain ⟨h1, h2⟩ := ih _ _ _ _ _ h
        simp [h1, h2, hd, clientRow]
      · simp only [hd] at h
        obtain ⟨h1, h2⟩ := ih _ _ _ _ _ h
        simp [h1, h2, hd]
    · simp [hf] at h

theorem map_clientRow_of_owner (l : List FileMetadata) (userID : Int)
    (hl : ∀ r ∈ l, r.UserID = userID) (p : FileMetadata → Bool) :
    (l.filter p).map (clientRow userID) = l.filter p := by
  conv_rhs => rw [← List.map_id (l.filter p)]
  apply List.map_congr_left
  intro r hr
  simpa using clientRow_self (hl r (List.mem_of_mem_filter hr))

theorem selectByUser_owner (tbl : List FileMetadata) (userID : Int) :
    ∀ r ∈ selectByUser tbl userID, r.UserID = userID := by
  intro r hr
  unfold selectByUser at hr
  simp only [List.mem_filter, decide_eq_true_eq] at hr
  exact hr.2

theorem map_clientRow_selectByUser (tbl : List FileMetadata) (userID : Int)
    (p : FileMetadata → Bool) :
    ((selectByUser tbl userID).filter p).map (clientRow userID) =
      (selectByUser tbl userID).filter p :=
  map_clientRow_of_owner _ userID (selectByUser_owner tbl userID) p

theorem map_clientRow_rowsRead (f : Faults) (tbl : List FileMetadata) (userID : Int)
    (p : FileMetadata → Bool) :
    ((rowsRead f 0 (selectByUser tbl userID)).filter p).map (clientRow userID) =
      (rowsRead f 0 (selectByUser tbl userID)).filter p :=
  map_clientRow_of_owner _ userID
    (fun r hr => selectByUser_owner tbl userID r (rowsRead_subset f _ _ r hr)) p

/-- A successful sync: the committed table is what the loop over the items leaves, and the
answer lists the rows of the owner that the loop over the rows got to see. -/
theorem SyncMetadata_ok {f : Faults} {db db1 : DB} {userID : Int} {req : SyncRequest}
    {now : Time} {resp : SyncResponse}
    (h : SyncMetadata f db userID (some req) now = (db1, .ok resp)) :
    ∃ tbl, syncItems f userID 0 req.Items db.file_metadata = .ok tbl ∧
      db1 = { users := stampUser db.users now userID, file_metadata := tbl } ∧
      resp = { UpdatedItems :=
                 (rowsRead f 0 (selectByUser tbl userID)).filter (fun r => !r.IsDeleted),
               DeletedIDs :=
                 ((rowsRead f 0 (selectByUser tbl userID)).filter
                   (fun r => r.IsDeleted)).map (·.ID),
               SyncToken := GenerateSyncToken userID now, Timestamp := now } := by
  simp only [SyncMetadata] at h
  cases hb : f .begin
  swap
  · simp [hb] at h
  simp only [hb] at h
  cases htx : syncTx f db userID req now with
  | error e => simp [htx] at h
  | ok p =>
    obtain ⟨tx, r⟩ := p
    simp only [htx] at h
    have h1 : tx = db1 := by simpa using congrArg Prod.fst h
    have h2 : r = resp := by simpa using congrArg Prod.snd h
    subst h1; subst h2
    unfold syncTx at htx
    cases hi : syncItems f userID 0 req.Items db.file_metadata with
    | error e => simp [hi] at htx
    | ok tbl =>
      simp only [hi] at htx
      cases hq : f .query
      swap
      · simp [hq] at htx
      simp only [hq] at htx
      cases hsc : scanRows f userID 0 (selectByUser tbl userID) [] [] with
      | error e => simp [hsc] at htx
      | ok ud =>
        obtain ⟨u, d⟩ := ud
        simp only [hsc] at htx
        cases hst : f .stamp
        swap
        · simp [hst] at htx
        cases hcm : f .commit
        swap
        · simp [hst, hcm] at htx
        simp only [hst, hcm] at htx
        obtain ⟨hu, hd⟩ := scanRows_ok _ _ _ _ _ _ hsc
        rw [map_clientRow_rowsRead] at hu
        simp only [List.nil_append] at hu hd
        subst hu; subst hd
        refine ⟨tbl, rfl, ?_, ?_⟩
        · simpa using (congrArg Prod.fst (Except.ok.inj htx)).symm
        · simpa using (congrArg Prod.snd (Except.ok.inj htx)).symm

/-- A successful sync during which no `rows.Next()` fails: the answer lists all rows of
the owner. -/
theorem SyncMetadata_ok_complete {f : Faults} (hnext : NextNeverFails f) {db db1 : DB}
    {userID : Int} {req : SyncRequest} {now : Time} {resp : SyncResponse}
    (h : SyncMetadata f db userID (some req) now = (db1, .ok resp)) :
    ∃ tbl, syncItems f userID 0 req.Items db.file_metadata = .ok tbl ∧
      db1 = { users := stampUser db.users now userID, file_metadata := tbl } ∧
      resp = { UpdatedItems := (selectByUser tbl userID).filter (fun r => !r.IsDeleted),
               DeletedIDs := ((selectByUser tbl userID).filter (fun r => r.IsDeleted)).map (·.ID),
               SyncToken := GenerateSyncToken userID now, Timestamp := now } := by
  obtain ⟨tbl, hi, hdb, hresp⟩ := SyncMetadata_ok h
  rw [rowsRead_complete hnext] at hresp
  exact ⟨tbl, hi, hdb, hresp⟩

/-- Every early `return` of the handler happens before `Commit`: an error answer comes with
the database the call started from. -/
theorem SyncMetadata_error_unchanged (f : Faults) (db : DB) (owner : Int)
    (body : Option SyncRequest) (now : Time) (e : HttpError)
    (h : (SyncMetadata f db owner body now).2 = .error e) :
    (SyncMetadata f db owner body now).1 = db := by
  unfold SyncMetadata at h ⊢
  cases body with
  | none => rfl
  | some req =>
    simp only at h ⊢
    cases hb : f .begin
    · simp only [hb] at h ⊢
      cases htx : syncTx f db owner req now with
      | error e1 => rfl
      | ok p => simp [htx] at h
    · simp [hb]

/-- A call either leaves the database as it was or is a successful sync. -/
theorem SyncMetadata_cases (f : Faults) (db : DB) (userID : Int) (body : Option SyncRequest)
    (now : Time) :
    (SyncMetadata f db userID body now).1 = db ∨
    ∃ req resp, body = some req ∧
      SyncMetadata f db userID (some req) now = ((SyncMetadata f db userID body now).1, .ok resp) := by
  cases body with
  | none => left; rfl
  | some req =>
    cases h : (SyncMetadata f db userID (some req) now).2 with
    | error e => left; exact SyncMetadata_error_unchanged f db userID (some req) now e h
    | ok resp => right; exact ⟨req, resp, rfl, by rw [← h]⟩

/-! ## Last writer wins -/

theorem mem_rowsRead_selectByUser {f : Faults} {tbl : List FileMetadata} {userID : Int}
    {r : FileMetadata} (h : r ∈ rowsRead f 0 (selectByUser tbl userID)) :
    r ∈ tbl ∧ r.UserID = userID := by
  have := rowsRead_subset f _ _ r h
  unfold selectByUser at this
  simpa using this

/-- C1 (amended): when the owner already stores id X as row `s`, a successful sync of
the single item `c` for X overwrites payload, version, lastModifiedAt and isDeleted with
the client's values if `c.Version` is strictly greater than `s.Version`; otherwise the
table is left as it was, a stored tombstone has no item in `UpdatedItems` (so the answer
carries no payload for X), and, when no `rows.Next()` of the snapshot fails, the answer
carries the stored row (so its payload) in `UpdatedItems` when that row is not a tombstone
and lists X in `DeletedIDs` when it is. -/
theorem C1_last_writer_wins (f : Faults) (db db1 : DB) (owner : Int) (req : SyncRequest)
    (c s : FileMetadata) (now : Time) (resp : SyncResponse)
    (hpk : (db.file_metadata.map (·.ID)).Nodup)
    (hs : selectItem db.file_metadata c.ID owner = some s)
    (hreq : req.Items = [c])
    (hok : SyncMetadata f db owner (some req) now = (db1, .ok resp)) :
    (s.Version < c.Version →
      selectItem db1.file_metadata c.ID owner =
        some { s with EncryptedData := c.EncryptedData, Version := c.Version,
                      LastModifiedAt := c.LastModifiedAt, IsDeleted := c.IsDeleted }) ∧
    (c.Version ≤ s.Version →
      db1.file_metadata = db.file_metadata ∧
      (s.IsDeleted = true → ∀ it ∈ resp.UpdatedItems, it.ID ≠ c.ID) ∧
      (NextNeverFails f →
        (s.IsDeleted = false → s ∈ resp.UpdatedItems) ∧
        (s.IsDeleted = true → s.ID ∈ resp.DeletedIDs))) := by
  obtain ⟨tbl, hi, rfl, rfl⟩ := SyncMetadata_ok hok
  rw [hreq] at hi
  obtain ⟨tbl1, hstep, hrest⟩ := syncItems_cons hi
  rw [syncItems_nil] at hrest
  obtain rfl : tbl1 = tbl := Except.ok.inj hrest
  obtain ⟨hmem, hid, huser⟩ := selectItem_some hs
  constructor
  · intro hlt
    rcases hstep with ⟨hnone, _, _⟩ | ⟨s1, hs1, _, rfl⟩ | ⟨s1, hs1, hle, _⟩
    · rw [hnone] at hs; cases hs
    · rw [hs] at hs1; cases hs1
      simp only
      rw [selectItem_overwrite, hs, Option.map_some']
      congr 1
      unfold overwrite
      rw [if_pos ((matchesKey_iff _ _ _).2 ⟨hid, huser⟩)]
    · rw [hs] at hs1; cases hs1
      exact absurd hlt (not_lt.2 hle)
  · intro hle
    have htbl : tbl1 = db.file_metadata := by
      rcases hstep with ⟨hnone, _, _⟩ | ⟨s1, hs1, hgt, _⟩ | ⟨s1, _, _, h⟩
      · rw [hnone] at hs; cases hs
      · rw [hs] at hs1; cases hs1
        exact absurd hgt (not_lt.2 hle)
      · exact h
    subst htbl
    refine ⟨rfl, ?_, ?_⟩
    · intro hd it hit hitid
      simp only [List.mem_filter] at hit
      obtain ⟨hit1, _⟩ := mem_rowsRead_selectByUser hit.1
      have : it = s := List.inj_on_of_nodup_map hpk hit1 hmem (hitid.trans hid.symm)
      subst this
      simp [hd] at hit
    · intro hnext
      simp only [rowsRead_complete hnext]
      constructor
      · intro hd
        simp only [selectByUser, List.mem_filter, decide_eq_true_eq]
        exact ⟨⟨hmem, huser⟩, by simp [hd]⟩
      · intro hd
        simp only [selectByUser, List.mem_map, List.mem_filter, decide_eq_true_eq]
        exact ⟨s, ⟨⟨hmem, huser⟩, hd⟩, rfl⟩

/-- C1, at a concrete store: user 1 stores `X` at version 3 and submits it at version 4. -/
theorem C1_last_writer_wins_witness :
    selectItem (SyncMetadata noFaults exDB 1
        (some (exReq [⟨"X", "E4", 0, 4, 20, true⟩])) 30).1.file_metadata "X" 1 =
      some ⟨"X", "E4", 1, 4, 20, true⟩ :=
  (C1_last_writer_wins noFaults exDB
    (SyncMetadata noFaults exDB 1 (some (exReq [⟨"X", "E4", 0, 4, 20, true⟩])) 30).1 1
    (exReq [⟨"X", "E4", 0, 4, 20, true⟩]) ⟨"X", "E4", 0, 4, 20, true⟩
    ⟨"X", "E3", 1, 3, 10, false⟩ 30
    { UpdatedItems := [], DeletedIDs := ["X", "Z"], SyncToken := "sync_token_1",
      Timestamp := 30 }
    (by decide) (by decide) rfl rfl).1 (by decide)

/-- C1 as stated fails on a tombstone: user 1 stores `Z` at version 2 with payload `EZ` and
`isDeleted = true`; a sync submitting `Z` at version 2 succeeds, leaves the table as it was,
and its answer carries no payload for `Z` (only the id, in `DeletedIDs`). -/
theorem C1_tombstone_counterexample :
    selectItem exDB.file_metadata "Z" 1 = some ⟨"Z", "EZ", 1, 2, 11, true⟩ ∧
    SyncMetadata noFaults exDB 1 (some (exReq [⟨"Z", "new", 0, 2, 20, false⟩])) 30 =
      ({ exDB with users := stampUser exDB.users 30 1 },
       .ok { UpdatedItems := [⟨"X", "E3", 1, 3, 10, false⟩], DeletedIDs := ["Z"],
             SyncToken := "sync_token_1", Timestamp := 30 }) ∧
    ¬ ∃ it ∈ [(⟨"X", "E3", 1, 3, 10, false⟩ : FileMetadata)], it.ID = "Z" := by
  refine ⟨by decide, rfl, by decide⟩

/-! ## Version monotonicity -/

theorem syncItems_mono {f : Faults} {userID : Int} {items : List FileMetadata} {id : String}
    {owner : Int} :
    ∀ {i : Nat} {tbl tbl2 : List FileMetadata} {r : FileMetadata},
      syncItems f userID i items tbl = .ok tbl2 → selectItem tbl id owner = some r →
        ∃ r1, selectItem tbl2 id owner = some r1 ∧ r.Version ≤ r1.Version := by
  induction items with
  | nil =>
    intro i tbl tbl2 r h hr
    rw [syncItems_nil] at h
    obtain rfl := Except.ok.inj h
    exact ⟨r, hr, le_refl _⟩
  | cons c cs ih =>
    intro i tbl tbl2 r h hr
    obtain ⟨tbl1, hs, hrest⟩ := syncItems_cons h
    obtain ⟨r1, hr1, h1⟩ := hs.mono hr
    obtain ⟨r2, hr2, h2⟩ := ih hrest hr1
    exact ⟨r2, hr2, le_trans h1 h2⟩

/-- Version monotonicity and row permanence, where they hold: `SyncMetadata`, succeeding or
failing, keeps every stored row present and never lowers its version. -/
theorem SyncMetadata_version_mono (f : Faults) (db : DB) (userID : Int)
    (body : Option SyncRequest) (now : Time) (id : String) (owner : Int) (r : FileMetadata)
    (hr : selectItem db.file_metadata id owner = some r) :
    ∃ r1, selectItem (SyncMetadata f db userID body now).1.file_metadata id owner = some r1 ∧
      r.Version ≤ r1.Version := by
  rcases SyncMetadata_cases f db userID body now with h | ⟨req, resp, _, h⟩
  · rw [h]; exact ⟨r, hr, le_refl _⟩
  · obtain ⟨tbl, hi, hdb, _⟩ := SyncMetadata_ok h
    rw [hdb]
    exact syncItems_mono hi hr

/-- Handler `AddMetadata`, succeeding or failing, keeps every stored row as it is. -/
theorem AddMetadata_keeps (f : Faults) (db : DB) (userID : Int) (body : Option FileMetadata)
    (newID : String) (now : Time) (id : String) (owner : Int) (r : FileMetadata)
    (hr : selectItem db.file_metadata id owner = some r) :
    selectItem (AddMetadata f db userID body newID now).1.file_metadata id owner = some r := by
  unfold AddMetadata
  cases body with
  | none => exact hr
  | some item =>
    simp only
    cases hi : insertItem (f (.insert 0)) db.file_metadata
        { item with UserID := userID, ID := newID, Version := 1, LastModifiedAt := now,
                    IsDeleted := false } with
    | none => exact hr
    | some tbl =>
      simp only
      rw [(insertItem_some hi).2.2]
      exact selectItem_append_of_some hr _

theorem wrapInt64_succ {v : Int} (hlo : -2 ^ 63 ≤ v) (hhi : v < 2 ^ 63 - 1) :
    wrapInt64 (v + 1) = v + 1 := by
  unfold wrapInt64
  rw [Int.emod_eq_of_lt (by omega) (by omega)]
  omega

/-- Handler `UpdateMetadata` below the largest `int`: every stored row stays present and its
version does not decrease. -/
theorem UpdateMetadata_version_mono (f : Faults) (db : DB) (userID : Int) (target : String)
    (body : Option FileMetadata) (now : Time) (id : String) (owner : Int) (r : FileMetadata)
    (hrange : ∀ x ∈ db.file_metadata, -2 ^ 63 ≤ x.Version ∧ x.Version < 2 ^ 63 - 1)
    (hr : selectItem db.file_metadata id owner = some r) :
    ∃ r1, selectItem (UpdateMetadata f db userID target body now).1.file_metadata id owner =
        some r1 ∧ r.Version ≤ r1.Version := by
  unfold UpdateMetadata
  cases body with
  | none => exact ⟨r, hr, le_refl _⟩
  | some item =>
    simp only
    cases hq : queryRow (f (.select 0)) db.file_metadata target userID with
    | errNoRows => exact ⟨r, hr, le_refl _⟩
    | err => exact ⟨r, hr, le_refl _⟩
    | row cur =>
      simp only
      cases hu : updateItem (f (.update 0)) db.file_metadata item.EncryptedData
          (wrapInt64 (cur.Version + 1)) now item.IsDeleted target userID with
      | none => exact ⟨r, hr, le_refl _⟩
      | some tbl =>
        simp only
        rw [(updateItem_some hu).2, selectItem_overwrite, hr, Option.map_some']
        refine ⟨_, rfl, ?_⟩
        unfold overwrite
        split
        · rename_i hm
          obtain ⟨h1, h2⟩ := (matchesKey_iff _ _ _).1 hm
          obtain ⟨_, h3, h4⟩ := selectItem_some hr
          have hcur := (queryRow_row hq).2
          have e1 : target = id := h1.symm.trans h3
          have e2 : userID = owner := h2.symm.trans h4
          subst e1; subst e2
          rw [hr] at hcur
          obtain rfl := Option.some.inj hcur
          obtain ⟨hlo, hhi⟩ := hrange r (selectItem_some hr).1
          simp only
          rw [wrapInt64_succ hlo hhi]
          omega
        · exact le_refl _

/-- C2, at the failing input: a sync into an empty store creates `X` at version
9223372036854775807 (the largest Go `int`); `DeleteMetadata`, and likewise
`UpdateMetadata`, then store `currentVersion + 1`, which wraps around to
-9223372036854775808: the stored version has decreased. -/
theorem C2_version_wraps_around :
    (SyncMetadata noFaults exEmptyDB 1
        (some (exReq [⟨"X", "E", 0, 9223372036854775807, 10, false⟩])) 5).1 = exMaxDB ∧
    selectItem exMaxDB.file_metadata "X" 1 =
      some ⟨"X", "E", 1, 9223372036854775807, 10, false⟩ ∧
    DeleteMetadata noFaults exMaxDB 1 "X" 30 =
      ({ exMaxDB with file_metadata := [⟨"X", "E", 1, -9223372036854775808, 30, true⟩] },
       .ok "Metadata deleted") ∧
    UpdateMetadata noFaults exMaxDB 1 "X" (some ⟨"", "E2", 0, 0, 0, false⟩) 30 =
      ({ exMaxDB with file_metadata := [⟨"X", "E2", 1, -9223372036854775808, 30, false⟩] },
       .ok ⟨"", "E2", 1, -9223372036854775808, 30, false⟩) ∧
    (-9223372036854775808 : Int) < 9223372036854775807 := by
  refine ⟨rfl, by decide, rfl, rfl, by decide⟩

/-! ## Atomic batch -/

theorem syncItems_nodup {f : Faults} {userID : Int} {items tbl tbl2 : List FileMetadata}
    {i : Nat} (h : syncItems f userID i items tbl = .ok tbl2)
    (hnd : (tbl.map (·.ID)).Nodup) : (tbl2.map (·.ID)).Nodup :=
  syncItems_induct (fun t => (t.map (·.ID)).Nodup) items
    (fun _ _ _ _ hs hP => hs.nodup hP) i tbl tbl2 h hnd

theorem syncItems_mem_of_unmentioned {f : Faults} {userID : Int}
    {items tbl tbl2 : List FileMetadata} {i : Nat}
    (h : syncItems f userID i items tbl = .ok tbl2) {r : FileMetadata} (hr : r ∈ tbl)
    (hne : ∀ c ∈ items, c.ID ≠ r.ID) : r ∈ tbl2 :=
  syncItems_induct (fun t => r ∈ t) items
    (fun c hc _ _ hs hP => hs.mem_of_ne hP (hne c hc)) i tbl tbl2 h hr

/-- The full snapshot, where it holds: after a successful sync during which no
`rows.Next()` fails, `UpdatedItems` is exactly the owner's rows of the committed table with
`isDeleted = false`, `DeletedIDs` exactly the ids of the owner's rows with
`isDeleted = true`; a row of the owner that the batch does not mention is still in the
table, hence in the answer; and (ids being the primary key) no id is in both lists. -/
theorem snapshot_partition_complete (f : Faults) (db db1 : DB) (owner : Int)
    (req : SyncRequest) (now : Time) (resp : SyncResponse)
    (hnext : NextNeverFails f)
    (hpk : (db.file_metadata.map (·.ID)).Nodup)
    (hok : SyncMetadata f db owner (some req) now = (db1, .ok resp)) :
    resp.UpdatedItems =
      (selectByUser db1.file_metadata owner).filter (fun r => !r.IsDeleted) ∧
    resp.DeletedIDs =
      ((selectByUser db1.file_metadata owner).filter (fun r => r.IsDeleted)).map (·.ID) ∧
    (∀ r ∈ db.file_metadata, r.UserID = owner → (∀ c ∈ req.Items, c.ID ≠ r.ID) →
      r ∈ db1.file_metadata ∧
      (r.IsDeleted = false → r ∈ resp.UpdatedItems) ∧
      (r.IsDeleted = true → r.ID ∈ resp.DeletedIDs)) ∧
    (∀ id, ¬ (id ∈ resp.UpdatedItems.map (·.ID) ∧ id ∈ resp.DeletedIDs)) := by
  obtain ⟨tbl, hi, rfl, rfl⟩ := SyncMetadata_ok_complete hnext hok
  refine ⟨rfl, rfl, ?_, ?_⟩
  · intro r hr hu hne
    have hmem : r ∈ tbl := syncItems_mem_of_unmentioned hi hr hne
    refine ⟨hmem, ?_, ?_⟩
    · intro hd
      simp only [selectByUser, List.mem_filter, decide_eq_true_eq]
      exact ⟨⟨hmem, hu⟩, by simp [hd]⟩
    · intro hd
      simp only [selectByUser, List.mem_map, List.mem_filter, decide_eq_true_eq]
      exact ⟨r, ⟨⟨hmem, hu⟩, hd⟩, rfl⟩
  · rintro id ⟨h1, h2⟩
    have hnd := syncItems_nodup hi hpk
    simp only [selectByUser, List.mem_map, List.mem_filter, decide_eq_true_eq] at h1 h2
    obtain ⟨a, ⟨⟨ha, _⟩, hda⟩, haid⟩ := h1
    obtain ⟨b, ⟨⟨hb, _⟩, hdb⟩, hbid⟩ := h2
    have hab : a = b := List.inj_on_of_nodup_map hnd ha hb (haid.trans hbid.symm)
    subst hab
    simp [hdb] at hda

theorem scanRows_noFaults (userID : Int) :
    ∀ (rows : List FileMetadata) (j : Nat) (u : List FileMetadata) (d : List String),
      scanRows noFaults userID j rows u d =
        .ok (u ++ (rows.filter (fun r => !r.IsDeleted)).map (clientRow userID),
             d ++ (rows.filter (fun r => r.IsDeleted)).map (·.ID)) := by
  intro rows
  induction rows with
  | nil => intro j u d; simp [scanRows]
  | cons r rs ih =>
    intro j u d
    rw [scanRows]
    cases hd : r.IsDeleted <;> simp [noFaults, hd, ih, clientRow]

/-- Without driver failures the handler succeeds as soon as its loop does. -/
theorem SyncMetadata_noFaults {db : DB} {owner : Int} {req : SyncRequest} {now : Time}
    {tbl : List FileMetadata}
    (h : syncItems noFaults owner 0 req.Items db.file_metadata = .ok tbl) :
    SyncMetadata noFaults db owner (some req) now =
      ({ users := stampUser db.users now owner, file_metadata := tbl },
       .ok { UpdatedItems := (selectByUser tbl owner).filter (fun r => !r.IsDeleted),
             DeletedIDs := ((selectByUser tbl owner).filter (fun r => r.IsDeleted)).map (·.ID),
             SyncToken := GenerateSyncToken owner now, Timestamp := now }) := by
  simp only [SyncMetadata, syncTx, h, scanRows_noFaults, map_clientRow_selectByUser]
  simp [noFaults]

/-- Insert when absent, where it holds: without driver failures, a sync of a single item
whose id is carried by no row of the table at all succeeds and stores the client's
version, lastModifiedAt, payload and isDeleted verbatim under the owner. -/
theorem SyncMetadata_insert_fresh (db : DB) (owner : Int) (req : SyncRequest)
    (c : FileMetadata) (now : Time) (hreq : req.Items = [c])
    (hfresh : ∀ x ∈ db.file_metadata, x.ID ≠ c.ID) :
    (∃ resp, SyncMetadata noFaults db owner (some req) now =
        ({ users := stampUser db.users now owner,
           file_metadata := db.file_metadata ++ [clientRow owner c] }, .ok resp)) ∧
      selectItem (db.file_metadata ++ [clientRow owner c]) c.ID owner =
        some (clientRow owner c) := by
  have hnone : selectItem db.file_metadata c.ID owner = none := by
    unfold selectItem
    rw [List.find?_eq_none]
    intro x hx hm
    exact hfresh x hx ((matchesKey_iff _ _ _).1 hm).1
  have hany : (db.file_metadata.any fun x => decide (x.ID = c.ID)) = false := by
    rw [List.any_eq_false]
    intro x hx
    simpa using hfresh x hx
  have hloop : syncItems noFaults owner 0 req.Items db.file_metadata =
      .ok (db.file_metadata ++ [clientRow owner c]) := by
    simp [hreq, syncItems, queryRow, insertItem, hnone, hany, noFaults, clientRow]
  refine ⟨⟨_, SyncMetadata_noFaults hloop⟩, ?_⟩
  unfold selectItem
  rw [List.find?_append]
  unfold selectItem at hnone
  rw [hnone]
  simp [matchesKey, clientRow]

/-- C5, at the failing input: user 2 already holds id `Y`; user 1 has no record `Y`, yet
a sync of user 1 with the single item `Y` is answered with status 500
("Failed to insert client item") and nothing is stored for user 1. -/
theorem C5_foreign_id_rejected :
    selectItem exDB.file_metadata "Y" 1 = none ∧
    selectItem exDB.file_metadata "Y" 2 = some ⟨"Y", "EY", 2, 1, 12, false⟩ ∧
    SyncMetadata noFaults exDB 1 (some (exReq [⟨"Y", "mine", 0, 1, 20, false⟩])) 30 =
      (exDB, .error ⟨500, "Failed to insert client item"⟩) := by
  refine ⟨by decide, by decide, rfl⟩

/-! ## Tombstone persistence -/

theorem syncItems_keeps {f : Faults} {userID : Int} {items tbl tbl2 : List FileMetadata}
    {i : Nat} (h : syncItems f userID i items tbl = .ok tbl2) {id : String}
    {r : FileMetadata} (hr : selectItem tbl id userID = some r)
    (hle : ∀ c ∈ items, c.ID = id → c.Version ≤ r.Version) :
    selectItem tbl2 id userID = some r :=
  syncItems_induct (fun t => selectItem t id userID = some r) items
    (fun c hc _ _ hs hP => hs.keeps hP (hle c hc)) i tbl tbl2 h hr

/-- Tombstone persistence, where it holds: (1) if the owner stores id `id` as the tombstone
`r`, then every successful sync of that owner whose batch has no item for `id` with a
version strictly greater than `r.Version` keeps `r` stored and has no item with that id in
`UpdatedItems`, and lists `id` in `DeletedIDs` when no `rows.Next()` of the snapshot
fails; (2) the scenario: into a store without records, a sync of
`{a, version 1, not deleted}` answers `UpdatedItems = [a]`, `DeletedIDs = []`, and a
following sync of `{a, version 2, isDeleted}` answers `UpdatedItems = []`,
`DeletedIDs = [a]`. -/
theorem tombstone_persistence_complete :
    (∀ (f : Faults) (db db1 : DB) (owner : Int) (req : SyncRequest) (now : Time)
        (resp : SyncResponse) (id : String) (r : FileMetadata),
        (db.file_metadata.map (·.ID)).Nodup →
        selectItem db.file_metadata id owner = some r → r.IsDeleted = true →
        (∀ c ∈ req.Items, c.ID = id → c.Version ≤ r.Version) →
        SyncMetadata f db owner (some req) now = (db1, .ok resp) →
        selectItem db1.file_metadata id owner = some r ∧
        (NextNeverFails f → id ∈ resp.DeletedIDs) ∧
        ∀ it ∈ resp.UpdatedItems, it.ID ≠ id) ∧
    (∀ (users : List User) (owner : Int) (dev1 dev2 tok1 tok2 e1 e2 : String)
        (u1 u2 : Int) (t1 t2 now1 now2 : Time),
        SyncMetadata noFaults { users := users, file_metadata := [] } owner
            (some ⟨dev1, [⟨"a", e1, u1, 1, t1, false⟩], tok1⟩) now1 =
          ({ users := stampUser users now1 owner,
             file_metadata := [⟨"a", e1, owner, 1, t1, false⟩] },
           .ok { UpdatedItems := [⟨"a", e1, owner, 1, t1, false⟩], DeletedIDs := [],
                 SyncToken := GenerateSyncToken owner now1, Timestamp := now1 }) ∧
        SyncMetadata noFaults
            { users := stampUser users now1 owner,
              file_metadata := [⟨"a", e1, owner, 1, t1, false⟩] } owner
            (some ⟨dev2, [⟨"a", e2, u2, 2, t2, true⟩], tok2⟩) now2 =
          ({ users := stampUser (stampUser users now1 owner) now2 owner,
             file_metadata := [⟨"a", e2, owner, 2, t2, true⟩] },
           .ok { UpdatedItems := [], DeletedIDs := ["a"],
                 SyncToken := GenerateSyncToken owner now2, Timestamp := now2 })) := by
  constructor
  · intro f db db1 owner req now resp id r hpk hr hdel hle hok
    obtain ⟨tbl, hi, rfl, rfl⟩ := SyncMetadata_ok hok
    have hkeep : selectItem tbl id owner = some r := syncItems_keeps hi hr hle
    obtain ⟨hmem, hid, huser⟩ := selectItem_some hkeep
    refine ⟨hkeep, ?_, ?_⟩
    · intro hnext
      simp only [rowsRead_complete hnext, selectByUser, List.mem_map, List.mem_filter,
        decide_eq_true_eq]
      exact ⟨r, ⟨⟨hmem, huser⟩, hdel⟩, hid⟩
    · intro it hit hitid
      simp only [List.mem_filter] at hit
      obtain ⟨hit1, _⟩ := mem_rowsRead_selectByUser hit.1
      have hnd := syncItems_nodup hi hpk
      have : it = r := List.inj_on_of_nodup_map hnd hit1 hmem (hitid.trans hid.symm)
      subst this
      simp [hdel] at hit
  · intro users owner dev1 dev2 tok1 tok2 e1 e2 u1 u2 t1 t2 now1 now2
    constructor
    · have hloop : syncItems noFaults owner 0
          (SyncRequest.mk dev1 [⟨"a", e1, u1, 1, t1, false⟩] tok1).Items
          (DB.mk users []).file_metadata = .ok [⟨"a", e1, owner, 1, t1, false⟩] := by
        simp [syncItems, queryRow, insertItem, selectItem, noFaults]
      rw [SyncMetadata_noFaults hloop]
      simp [selectByUser]
    · have hloop : syncItems noFaults owner 0
          (SyncRequest.mk dev2 [⟨"a", e2, u2, 2, t2, true⟩] tok2).Items
          (DB.mk (stampUser users now1 owner) [⟨"a", e1, owner, 1, t1, false⟩]).file_metadata =
            .ok [⟨"a", e2, owner, 2, t2, true⟩] := by
        simp [syncItems, queryRow, updateItem, selectItem, matchesKey, noFaults]
      rw [SyncMetadata_noFaults hloop]
      simp [selectByUser]

theorem selectByUser_map_frame (g : FileMetadata → FileMetadata) (other : Int)
    (hg : ∀ r, (g r).UserID = r.UserID) (hfix : ∀ r, r.UserID = other → g r = r)
    (tbl : List FileMetadata) :
    selectByUser (tbl.map g) other = selectByUser tbl other := by
  induction tbl with
  | nil => rfl
  | cons r rs ih =>
    unfold selectByUser at ih ⊢
    simp only [List.map_cons, List.filter_cons, hg]
    by_cases hr : r.UserID = other
    · simp [hr, hfix r hr, ih]
    · simp [hr, ih]

theorem syncItems_frame {f : Faults} {userID other : Int} (hne : userID ≠ other)
    {items tbl tbl2 : List FileMetadata} {i : Nat}
    (h : syncItems f userID i items tbl = .ok tbl2) :
    selectByUser tbl2 other = selectByUser tbl other :=
  syncItems_induct (fun t => selectByUser t other = selectByUser tbl other) items
    (fun _ _ _ _ hs hP => (hs.frame hne).trans hP) i tbl tbl2 h rfl

theorem stampUser_frame (users : List User) (now : Time) (userID other : Int)
    (hne : userID ≠ other) :
    (stampUser users now userID).filter (fun u => decide (u.ID = other)) =
      users.filter (fun u => decide (u.ID = other)) := by
  induction users with
  | nil => rfl
  | cons u us ih =>
    unfold stampUser at ih ⊢
    simp only [List.map_cons, List.filter_cons]
    by_cases hu : u.ID = userID
    · have h1 : ¬ u.ID = other := fun h => hne (hu.symm.trans h)
      simp [hu, hne, h1, ih]
    · simp only [if_neg hu, ih]


theorem UpdateMetadata_frame (f : Faults) (db : DB) (userID other : Int) (hne : userID ≠ other)
    (id : String) (body : Option FileMetadata) (now : Time) :
    selectByUser (UpdateMetadata f db userID id body now).1.file_metadata other =
        selectByUser db.file_metadata other ∧
      (UpdateMetadata f db userID id body now).1.users = db.users := by
  unfold UpdateMetadata
  cases body with
  | none => exact ⟨rfl, rfl⟩
  | some item =>
    simp only
    cases hq : queryRow (f (.select 0)) db.file_metadata id userID with
    | errNoRows => exact ⟨rfl, rfl⟩
    | err => exact ⟨rfl, rfl⟩
    | row cur =>
      simp only
      cases hu : updateItem (f (.update 0)) db.file_metadata item.EncryptedData
          (wrapInt64 (cur.Version + 1)) now item.IsDeleted id userID with
      | none => exact ⟨rfl, rfl⟩
      | some tbl =>
        refine ⟨?_, rfl⟩
        rw [(updateItem_some hu).2]
        exact selectByUser_overwrite _ _ _ _ _ _ _ hne _

theorem DeleteMetadata_frame (f : Faults) (db : DB) (userID other : Int) (hne : userID ≠ other)
    (id : String) (now : Time) :
    selectByUser (DeleteMetadata f db userID id now).1.file_metadata other =
        selectByUser db.file_metadata other ∧
      (DeleteMetadata f db userID id now).1.users = db.users := by
  unfold DeleteMetadata
  cases hq : queryRow (f (.select 0)) db.file_metadata id userID with
  | errNoRows => exact ⟨rfl, rfl⟩
  | err => exact ⟨rfl, rfl⟩
  | row cur =>
    simp only
    cases hu : tombstoneItem (f (.update 0)) db.file_metadata (wrapInt64 (cur.Version + 1)) now
        true id userID with
    | none => exact ⟨rfl, rfl⟩
    | some tbl =>
      refine ⟨?_, rfl⟩
      unfold tombstoneItem at hu
      cases hf : f (.update 0)
      · simp only [hf, Bool.false_eq_true, if_false, Option.some.injEq] at hu
        rw [← hu]
        apply selectByUser_map_frame
        · intro r; split <;> rfl
        · intro r hr
          rw [if_neg]
          rw [matchesKey_iff]
          exact fun h => hne (h.2.symm.trans hr)
      · simp [hf] at hu

/-- C10: for a call made as owner `A` and any other owner `B`: (1) `SyncMetadata`,
(2) `UpdateMetadata` and (3) `DeleteMetadata` leave every row of `B` in `file_metadata`, and
`B`'s row in `users`, as they were, whether the call succeeds or fails; (4) every item of
`UpdatedItems` of a successful sync is a stored row whose owner is `A`, and every id of
`DeletedIDs` is the id of a stored row whose owner is `A`. -/
theorem C10_owner_scoping (f : Faults) (db : DB) (A B : Int) (hAB : A ≠ B) :
    (∀ (body : Option SyncRequest) (now : Time),
      selectByUser (SyncMetadata f db A body now).1.file_metadata B =
          selectByUser db.file_metadata B ∧
        (SyncMetadata f db A body now).1.users.filter (fun u => decide (u.ID = B)) =
          db.users.filter (fun u => decide (u.ID = B))) ∧
    (∀ (id : String) (body : Option FileMetadata) (now : Time),
      selectByUser (UpdateMetadata f db A id body now).1.file_metadata B =
          selectByUser db.file_metadata B ∧
        (UpdateMetadata f db A id body now).1.users = db.users) ∧
    (∀ (id : String) (now : Time),
      selectByUser (DeleteMetadata f db A id now).1.file_metadata B =
          selectByUser db.file_metadata B ∧
        (DeleteMetadata f db A id now).1.users = db.users) ∧
    (∀ (req : SyncRequest) (now : Time) (db1 : DB) (resp : SyncResponse),
      SyncMetadata f db A (some req) now = (db1, .ok resp) →
        (∀ it ∈ resp.UpdatedItems, it.UserID = A ∧ it ∈ db1.file_metadata) ∧
        (∀ id ∈ resp.DeletedIDs, ∃ r ∈ db1.file_metadata, r.ID = id ∧ r.UserID = A)) := by
  refine ⟨?_, fun id body now => UpdateMetadata_frame f db A B hAB id body now,
    fun id now => DeleteMetadata_frame f db A B hAB id now, ?_⟩
  · intro body now
    rcases SyncMetadata_cases f db A body now with h | ⟨req, resp, _, h⟩
    · rw [h]; exact ⟨rfl, rfl⟩
    · obtain ⟨tbl, hi, hdb, _⟩ := SyncMetadata_ok h
      rw [hdb]
      exact ⟨syncItems_frame hAB hi, stampUser_frame _ _ _ _ hAB⟩
  · intro req now db1 resp hok
    obtain ⟨tbl, _, rfl, rfl⟩ := SyncMetadata_ok hok
    constructor
    · intro it hit
      simp only [List.mem_filter] at hit
      obtain ⟨h1, h2⟩ := mem_rowsRead_selectByUser hit.1
      exact ⟨h2, h1⟩
    · intro id hid
      simp only [List.mem_map, List.mem_filter] at hid
      obtain ⟨r, ⟨hr, _⟩, hrid⟩ := hid
      obtain ⟨h1, h2⟩ := mem_rowsRead_selectByUser hr
      exact ⟨r, h1, hrid, h2⟩

/-- C10, at a concrete call: user 1 overwrites its `X` and inserts a fresh id; the rows
of user 2 are the same afterwards. -/
theorem C10_owner_scoping_witness :
    selectByUser (SyncMetadata noFaults exDB 1
        (some (exReq [⟨"X", "E4", 0, 4, 20, true⟩, ⟨"N1", "E", 0, 1, 20, false⟩])) 30).1.file_metadata
        2 = [⟨"Y", "EY", 2, 1, 12, false⟩] :=
  ((C10_owner_scoping noFaults exDB 1 2 (by decide)).1
    (some (exReq [⟨"X", "E4", 0, 4, 20, true⟩, ⟨"N1", "E", 0, 1, 20, false⟩])) 30).1

/-! ## Base64 -/

set_option maxRecDepth 100000 in
theorem decodeMap_encodeChar : ∀ v : Fin 64, decodeMap (encodeChar v.val) = some v.val := by
  decide

theorem decodeMap_encodeChar_of_lt {v : Nat} (h : v < 64) :
    decodeMap (encodeChar v) = some v :=
  decodeMap_encodeChar ⟨v, h⟩

set_option maxRecDepth 100000 in
theorem decodeMap_high : ∀ c : Byte, 128 ≤ c.val → decodeMap c = none := by
  decide

set_option maxRecDepth 100000 in
theorem encodeStd_low : ∀ c ∈ encodeStd, c.val < 128 := by
  decide

theorem encodeChar_low (v : Nat) : (encodeChar v).val < 128 := by
  unfold encodeChar
  by_cases h : v < encodeStd.length
  · rw [List.getD_eq_getElem _ _ h]
    exact encodeStd_low _ (List.getElem_mem _)
  · rw [List.getD_eq_default _ _ (not_lt.1 h)]
    decide

theorem EncodeToString_low : ∀ (bs : Bytes), ∀ c ∈ EncodeToString bs, c.val < 128
  | [] => by simp [EncodeToString]
  | [b0] => by
    intro c hc
    simp only [EncodeToString, List.mem_cons, List.mem_singleton, List.mem_nil_iff,
      or_false] at hc
    rcases hc with rfl | rfl | rfl | rfl
    · exact encodeChar_low _
    · exact encodeChar_low _
    · decide
    · decide
  | [b0, b1] => by
    intro c hc
    simp only [EncodeToString, List.mem_cons, List.mem_singleton, List.mem_nil_iff,
      or_false] at hc
    rcases hc with rfl | rfl | rfl | rfl
    · exact encodeChar_low _
    · exact encodeChar_low _
    · exact encodeChar_low _
    · decide
  | b0 :: b1 :: b2 :: rest => by
    intro c hc
    simp only [EncodeToString, List.mem_cons] at hc
    rcases hc with rfl | rfl | rfl | rfl | hc
    · exact encodeChar_low _
    · exact encodeChar_low _
    · exact encodeChar_low _
    · exact encodeChar_low _
    · exact EncodeToString_low rest c hc

theorem skipNewlines_high :
    ∀ (rest : Bytes), (∃ c ∈ rest, 128 ≤ c.val) → ∃ c ∈ (skipNewlines rest).2, 128 ≤ c.val
  | [], h => by simp at h
  | c :: rest, h => by
    rw [skipNewlines]
    split
    · rename_i hc
      obtain ⟨x, hx, hbig⟩ := h
      have hlow : c.val < 128 := by rcases hc with rfl | rfl <;> decide
      rcases List.mem_cons.1 hx with rfl | hx
      · omega
      · exact skipNewlines_high rest ⟨x, hx, hbig⟩
    · exact h

/-- A string with a byte of value 128 or more is rejected by the decoder, whatever state
the decoder is in. -/
theorem decodeLoop_high :
    ∀ (src : Bytes) (si j acc : Nat) (out : Bytes), (∃ c ∈ src, 128 ≤ c.val) →
      ∃ off, decodeLoop src si j acc out = .error off := by
  intro src
  induction src with
  | nil => intro si j acc out h; simp at h
  | cons c rest ih =>
    intro si j acc out h
    have hrest : c.val < 128 → ∃ x ∈ rest, 128 ≤ x.val := by
      intro hlow
      obtain ⟨x, hx, hbig⟩ := h
      rcases List.mem_cons.1 hx with rfl | hx
      · omega
      · exact ⟨x, hx, hbig⟩
    rw [decodeLoop]
    cases hm : decodeMap c with
    | some v =>
      have hlow : c.val < 128 := by
        by_contra hge
        rw [decodeMap_high c (not_lt.1 hge)] at hm
        cases hm
      simp only
      split
      · exact ih _ _ _ _ (hrest hlow)
      · exact ih _ _ _ _ (hrest hlow)
    | none =>
      simp only
      by_cases hnl : c = charLF ∨ c = charCR
      · rw [if_pos hnl]
        have hlow : c.val < 128 := by rcases hnl with rfl | rfl <;> decide
        exact ih _ _ _ _ (hrest hlow)
      · rw [if_neg hnl]
        by_cases hpad : c ≠ padChar
        · rw [if_pos hpad]; exact ⟨_, rfl⟩
        · rw [if_neg hpad]
          have hc : c = padChar := not_not.1 hpad
          have hlow : c.val < 128 := by rw [hc]; decide
          by_cases hj : j < 2
          · rw [if_pos hj]; exact ⟨_, rfl⟩
          · rw [if_neg hj]
            obtain ⟨x, hx, hbig⟩ := skipNewlines_high rest (hrest hlow)
            by_cases hj2 : j = 2
            · rw [if_pos hj2]
              cases hsk : skipNewlines rest with
              | mk k r1 =>
                rw [hsk] at hx
                cases r1 with
                | nil => simp at hx
                | cons c1 rest1 =>
                  simp only
                  by_cases hc1 : c1 ≠ padChar
                  · rw [if_pos hc1]; exact ⟨_, rfl⟩
                  · rw [if_neg hc1]
                    have hc1e : c1 = padChar := not_not.1 hc1
                    have hx1 : x ∈ rest1 := by
                      rcases List.mem_cons.1 hx with hxc | hx1
                      · rw [hxc, hc1e] at hbig
                        exact absurd hbig (by decide)
                      · exact hx1
                    obtain ⟨y, hy, _⟩ := skipNewlines_high rest1 ⟨x, hx1, hbig⟩
                    rw [if_pos (List.ne_nil_of_mem hy)]
                    exact ⟨_, rfl⟩
            · rw [if_neg hj2, if_pos (List.ne_nil_of_mem hx)]
              exact ⟨_, rfl⟩

theorem DecodeString_high (s : Bytes) (h : ∃ c ∈ s, 128 ≤ c.val) :
    ∃ off, DecodeString s = .error off :=
  decodeLoop_high s 0 0 0 [] h

theorem byte_val_of_lt {n : Nat} (h : n < 256) : (byte n).val = n := by
  simp [byte, Nat.mod_eq_of_lt h]

theorem byte_eq {n : Nat} (b : Byte) (h : n % 256 = b.val) : byte n = b :=
  Fin.ext h

/-- Decoding an encoded string gives the bytes back, in whatever state the decoder starts a
quantum. -/
theorem decodeLoop_EncodeToString :
    ∀ (bs : Bytes) (si : Nat) (out : Bytes),
      decodeLoop (EncodeToString bs) si 0 0 out = .ok (out ++ bs)
  | [], si, out => by simp [EncodeToString, decodeLoop]
  | [b0], si, out => by
    have h0 : b0.val * 65536 / 262144 % 64 < 64 := Nat.mod_lt _ (by decide)
    have h1 : b0.val * 65536 / 4096 % 64 < 64 := Nat.mod_lt _ (by decide)
    have hp : decodeMap padChar = none := by decide
    have hnl : ¬ (padChar = charLF ∨ padChar = charCR) := by decide
    have hsk : skipNewlines [padChar] = (0, [padChar]) := by decide
    have hsk0 : skipNewlines ([] : Bytes) = (0, []) := by decide
    simp only [EncodeToString, decodeLoop, decodeMap_encodeChar_of_lt h0,
      decodeMap_encodeChar_of_lt h1, hp, hnl, hsk, hsk0]
    simp only [Nat.zero_ne_add_one, if_false, OfNat.ofNat_ne_zero, Nat.reduceAdd,
      Nat.reduceEqDiff, Nat.lt_irrefl, if_true, ne_eq, not_true_eq_false, Nat.one_ne_zero,
      Nat.reduceLT]
    have := b0.isLt
    refine congrArg Except.ok (congrArg (out ++ ·) ?_)
    simp only [List.cons.injEq, and_true]
    apply byte_eq; omega
  | [b0, b1], si, out => by
    have h0 : (b0.val * 65536 + b1.val * 256) / 262144 % 64 < 64 := Nat.mod_lt _ (by decide)
    have h1 : (b0.val * 65536 + b1.val * 256) / 4096 % 64 < 64 := Nat.mod_lt _ (by decide)
    have h2 : (b0.val * 65536 + b1.val * 256) / 64 % 64 < 64 := Nat.mod_lt _ (by decide)
    have hp : decodeMap padChar = none := by decide
    have hnl : ¬ (padChar = charLF ∨ padChar = charCR) := by decide
    have hsk0 : skipNewlines ([] : Bytes) = (0, []) := by decide
    simp only [EncodeToString, decodeLoop, decodeMap_encodeChar_of_lt h0,
      decodeMap_encodeChar_of_lt h1, decodeMap_encodeChar_of_lt h2, hp, hnl, hsk0]
    simp only [Nat.zero_ne_add_one, if_false, OfNat.ofNat_ne_zero, Nat.reduceAdd,
      Nat.reduceEqDiff, Nat.lt_irrefl, if_true, ne_eq, not_true_eq_false, Nat.one_ne_zero,
      Nat.reduceLT]
    have := b0.isLt
    have := b1.isLt
    refine congrArg Except.ok (congrArg (out ++ ·) ?_)
    simp only [List.cons.injEq, and_true]
    refine ⟨?_, ?_⟩ <;> (apply byte_eq; omega)
  | b0 :: b1 :: b2 :: rest, si, out => by
    have h0 : (b0.val * 65536 + b1.val * 256 + b2.val) / 262144 % 64 < 64 :=
      Nat.mod_lt _ (by decide)
    have h1 : (b0.val * 65536 + b1.val * 256 + b2.val) / 4096 % 64 < 64 :=
      Nat.mod_lt _ (by decide)
    have h2 : (b0.val * 65536 + b1.val * 256 + b2.val) / 64 % 64 < 64 :=
      Nat.mod_lt _ (by decide)
    have h3 : (b0.val * 65536 + b1.val * 256 + b2.val) % 64 < 64 := Nat.mod_lt _ (by decide)
    simp only [EncodeToString, decodeLoop, decodeMap_encodeChar_of_lt h0,
      decodeMap_encodeChar_of_lt h1, decodeMap_encodeChar_of_lt h2,
      decodeMap_encodeChar_of_lt h3]
    simp only [Nat.zero_ne_add_one, if_false, OfNat.ofNat_ne_zero, Nat.reduceAdd,
      Nat.reduceEqDiff, if_true, Nat.one_ne_zero]
    rw [decodeLoop_EncodeToString rest]
    have := b0.isLt
    have := b1.isLt
    have := b2.isLt
    simp only [List.append_assoc, List.cons_append, List.nil_append]
    refine congrArg Except.ok (congrArg (out ++ ·) ?_)
    simp only [List.cons.injEq, and_true]
    refine ⟨?_, ?_, ?_⟩ <;> (apply byte_eq; omega)

/-- Base64 round trip: `DecodeString(EncodeToString(bs))` returns `bs` without error. -/
theorem DecodeString_EncodeToString (bs : Bytes) : DecodeString (EncodeToString bs) = .ok bs := by
  unfold DecodeString
  rw [decodeLoop_EncodeToString]
  rfl

/-! ## The envelope -/

theorem xor_byte_cancel (b k : Byte) : byte ((byte (b.val ^^^ k.val)).val ^^^ k.val) = b := by
  have hlt : b.val ^^^ k.val < 256 :=
    Nat.xor_lt_two_pow (n := 8) b.isLt k.isLt
  apply byte_eq
  rw [byte_val_of_lt hlt, Nat.xor_assoc, Nat.xor_self, Nat.xor_zero]
  exact Nat.mod_eq_of_lt b.isLt

theorem xorStream_length (ks : Nat → Byte) :
    ∀ (bs : Bytes) (i : Nat), (xorStream ks i bs).length = bs.length
  | [], _ => rfl
  | _ :: bs, i => by simp [xorStream, xorStream_length ks bs (i + 1)]

theorem xorStream_xorStream (ks : Nat → Byte) :
    ∀ (bs : Bytes) (i : Nat), xorStream ks i (xorStream ks i bs) = bs
  | [], _ => rfl
  | b :: bs, i => by
    simp only [xorStream, xor_byte_cancel, xorStream_xorStream ks bs (i + 1)]

theorem tag16_length (t : Bytes) : (tag16 t).length = 16 := by
  simp [tag16]

/-- An AEAD of the shape of GCM opens what it sealed. -/
theorem gcmOf_Open_Seal (p : GCMParts) (nonce plaintext : Bytes) :
    (gcmOf p).Open nonce ((gcmOf p).Seal nonce plaintext) = some plaintext := by
  simp only [gcmOf, List.length_append, tag16_length]
  rw [if_neg (by omega)]
  simp only [Nat.add_sub_cancel, List.take_left', List.drop_left', if_true,
    xorStream_xorStream]

theorem readFull_some {rand : Bytes} {n : Nat} (h : n ≤ rand.length) :
    readFull rand n = some (rand.take n) ∧ (rand.take n).length = n := by
  unfold readFull
  rw [if_neg (by omega)]
  exact ⟨rfl, by simp [h]⟩

theorem aesKeySize_iff (n : Nat) : aesKeySize n = true ↔ n = 16 ∨ n = 24 ∨ n = 32 := by
  simp [aesKeySize]

/-- C7: for every service whose key has 16, 24 or 32 bytes, every plaintext `P` (the empty
one included) and every state of the random source that still delivers the 12 bytes of a
nonce, `Encrypt` succeeds and `Decrypt` of its output succeeds and returns exactly `P`.
The AEAD is taken with its contract that `Open` returns what `Seal` sealed under the same
nonce. -/
theorem C7_envelope_round_trip (gcm : Bytes → AEAD) (cs : CryptoService) (rand P : Bytes)
    (hkey : cs.key.length = 16 ∨ cs.key.length = 24 ∨ cs.key.length = 32)
    (hrand : 12 ≤ rand.length)
    (hopen : ∀ nonce pt, nonce.length = 12 →
      (gcm cs.key).Open nonce ((gcm cs.key).Seal nonce pt) = some pt) :
    ∃ env, Encrypt gcm cs rand P = .ok env ∧ Decrypt gcm cs env = .ok P := by
  obtain ⟨hread, hlen⟩ := readFull_some hrand
  have hk : aesKeySize cs.key.length = true := (aesKeySize_iff _).2 hkey
  refine ⟨EncodeToString (rand.take 12 ++ (gcm cs.key).Seal (rand.take 12) P), ?_, ?_⟩
  · simp only [Encrypt, hk, hread, if_true]
  · simp only [Decrypt, DecodeString_EncodeToString, List.length_append, hlen]
    rw [if_neg (by omega)]
    have htake : List.take 12 (rand.take 12 ++ (gcm cs.key).Seal (rand.take 12) P) =
        rand.take 12 := by
      rw [List.take_append_of_le_length (by omega)]
      exact List.take_of_length_le (by omega)
    have hdrop : List.drop 12 (rand.take 12 ++ (gcm cs.key).Seal (rand.take 12) P) =
        (gcm cs.key).Seal (rand.take 12) P := by
      rw [List.drop_append_of_le_length (by omega)]
      rw [List.drop_of_length_le (by omega)]
      rfl
    simp only [hk, if_true, htake, hdrop, hopen _ P hlen]

/-- C7, at a concrete call: the example key, nonce `1..12` and plaintext `hi!` with a
GCM-shaped AEAD. -/
theorem C7_envelope_round_trip_witness :
    ∃ env, Encrypt exGCM exKey exRand (ascii "hi!") = .ok env ∧
      Decrypt exGCM exKey env = .ok (ascii "hi!") :=
  C7_envelope_round_trip exGCM exKey exRand (ascii "hi!") (by decide) (by decide)
    (fun nonce pt _ => gcmOf_Open_Seal _ nonce pt)

/-! ## Tampering and rejected inputs -/

set_option maxRecDepth 100000 in
theorem flip_top_bit_high : ∀ b : Byte, b.val < 128 → 128 ≤ (byte (b.val ^^^ 2 ^ 7)).val := by
  decide

theorem flipBit_high :
    ∀ (s : Bytes) (i : Nat), i < s.length → (∀ c ∈ s, c.val < 128) →
      ∃ c ∈ flipBit s i 7, 128 ≤ c.val
  | [], _, hi, _ => by simp at hi
  | b :: bs, 0, _, hlow => by
    refine ⟨_, ?_, flip_top_bit_high b (hlow b (List.mem_cons_self _ _))⟩
    simp [flipBit]
  | b :: bs, i + 1, hi, hlow => by
    obtain ⟨c, hc, hbig⟩ := flipBit_high bs i (by simpa using hi)
      (fun c hc => hlow c (List.mem_cons_of_mem _ hc))
    exact ⟨c, by simp [flipBit, hc], hbig⟩

theorem Encrypt_ok {gcm : Bytes → AEAD} {cs : CryptoService} {rand P env : Bytes}
    (h : Encrypt gcm cs rand P = .ok env) :
    aesKeySize cs.key.length = true ∧ ∃ encrypted, env = EncodeToString encrypted := by
  unfold Encrypt at h
  cases hk : aesKeySize cs.key.length
  · simp [hk] at h
  · simp only [hk, if_true] at h
    cases hr : readFull rand 12 with
    | none => simp [hr] at h
    | some nonce =>
      simp only [hr] at h
      exact ⟨rfl, _, (Except.ok.inj h).symm⟩

theorem Decrypt_of_decode_error {gcm : Bytes → AEAD} {cs : CryptoService} {s : Bytes}
    {off : Nat} (h : DecodeString s = .error off) :
    Decrypt gcm cs s = .error (.corruptInput off) := by
  simp [Decrypt, h]

theorem Decrypt_ok {gcm : Bytes → AEAD} {cs : CryptoService} {s p : Bytes}
    (h : Decrypt gcm cs s = .ok p) :
    ∃ b, DecodeString s = .ok b ∧ 12 ≤ b.length ∧
      (gcm cs.key).Open (b.take 12) (b.drop 12) = some p := by
  unfold Decrypt at h
  cases hd : DecodeString s with
  | error off => simp [hd] at h
  | ok b =>
    simp only [hd] at h
    by_cases hlen : b.length < 12
    · simp [hlen] at h
    · rw [if_neg hlen] at h
      cases hk : aesKeySize cs.key.length
      · simp [hk] at h
      · simp only [hk, if_true] at h
        cases ho : (gcm cs.key).Open (b.take 12) (b.drop 12) with
        | none => simp [ho] at h
        | some q =>
          simp only [ho] at h
          obtain rfl := Except.ok.inj h
          exact ⟨b, rfl, not_lt.1 hlen, ho⟩

/-! ### How many bytes an altered envelope decodes to -/

theorem alphabetCount_skipNewlines :
    ∀ (rest : Bytes), alphabetCount (skipNewlines rest).2 = alphabetCount rest
  | [] => rfl
  | c :: rest => by
    rw [skipNewlines]
    split
    · rename_i hc
      have hm : decodeMap c = none := by rcases hc with rfl | rfl <;> decide
      simp only [alphabetCount, hm, Option.isSome_none, Bool.false_eq_true, if_false,
        Nat.zero_add]
      exact alphabetCount_skipNewlines rest
    · rfl

theorem alphabetCount_of_skip_nil {rest : Bytes} (h : (skipNewlines rest).2 = []) :
    alphabetCount rest = 0 := by
  rw [← alphabetCount_skipNewlines, h]
  rfl

/-- The decoder gives three bytes for every four alphabet characters it reads: a lower
bound for the length of what it returns. -/
theorem decodeLoop_length :
    ∀ (src : Bytes) (si j acc : Nat) (out b : Bytes), j ≤ 3 →
      decodeLoop src si j acc out = .ok b →
      4 * out.length + 3 * (j + alphabetCount src) ≤ 4 * b.length + 2 := by
  intro src
  induction src with
  | nil =>
    intro si j acc out b hj h
    rw [decodeLoop] at h
    by_cases h0 : j = 0
    · rw [if_pos h0] at h
      obtain rfl := Except.ok.inj h
      simp [alphabetCount, h0]
    · rw [if_neg h0] at h
      cases h
  | cons c rest ih =>
    intro si j acc out b hj h
    rw [decodeLoop] at h
    cases hm : decodeMap c with
    | some v =>
      simp only [hm] at h
      have hc : alphabetCount (c :: rest) = 1 + alphabetCount rest := by
        simp [alphabetCount, hm]
      rw [hc]
      by_cases h3 : j = 3
      · rw [if_pos h3] at h
        have := ih _ _ _ _ _ (Nat.zero_le 3) h
        simp only [List.length_append, List.length_cons, List.length_nil] at this
        omega
      · rw [if_neg h3] at h
        have := ih _ _ _ _ _ (by omega) h
        omega
    | none =>
      simp only [hm] at h
      have hc : alphabetCount (c :: rest) = alphabetCount rest := by
        simp [alphabetCount, hm]
      rw [hc]
      by_cases hnl : c = charLF ∨ c = charCR
      · rw [if_pos hnl] at h
        exact ih _ _ _ _ _ hj h
      · rw [if_neg hnl] at h
        by_cases hpad : c ≠ padChar
        · rw [if_pos hpad] at h; cases h
        · rw [if_neg hpad] at h
          by_cases hj2 : j < 2
          · rw [if_pos hj2] at h; cases h
          · rw [if_neg hj2] at h
            by_cases h2 : j = 2
            · rw [if_pos h2] at h
              cases hsk : skipNewlines rest with
              | mk k r1 =>
                rw [hsk] at h
                cases r1 with
                | nil => simp only at h; cases h
                | cons c1 rest1 =>
                  simp only at h
                  by_cases hc1 : c1 ≠ padChar
                  · rw [if_pos hc1] at h; cases h
                  · rw [if_neg hc1] at h
                    have hc1e : c1 = padChar := not_not.1 hc1
                    by_cases hne : (skipNewlines rest1).2 ≠ []
                    · rw [if_pos hne] at h; cases h
                    · rw [if_neg hne] at h
                      obtain rfl := Except.ok.inj h
                      have h1 : alphabetCount rest1 = 0 :=
                        alphabetCount_of_skip_nil (not_not.1 hne)
                      have h2a : alphabetCount rest = alphabetCount (c1 :: rest1) := by
                        rw [← alphabetCount_skipNewlines rest, hsk]
                      have hp : decodeMap padChar = none := by decide
                      have h3 : alphabetCount (c1 :: rest1) = 0 := by
                        simp [alphabetCount, hc1e, hp, h1]
                      simp only [List.length_append, List.length_cons, List.length_nil]
                      omega
            · rw [if_neg h2] at h
              by_cases hne : (skipNewlines rest).2 ≠ []
              · rw [if_pos hne] at h; cases h
              · rw [if_neg hne] at h
                obtain rfl := Except.ok.inj h
                have h1 : alphabetCount rest = 0 := alphabetCount_of_skip_nil (not_not.1 hne)
                simp only [List.length_append, List.length_cons, List.length_nil]
                omega

theorem alphabetCount_encodeChar_cons {v : Nat} (h : v < 64) (rest : Bytes) :
    alphabetCount (encodeChar v :: rest) = 1 + alphabetCount rest := by
  simp [alphabetCount, decodeMap_encodeChar_of_lt h]

/-- An encoded string has at least four alphabet characters for every three bytes. -/
theorem alphabetCount_EncodeToString :
    ∀ (bs : Bytes), 4 * bs.length ≤ 3 * alphabetCount (EncodeToString bs)
  | [] => by simp [EncodeToString, alphabetCount]
  | [b0] => by
    have h0 : b0.val * 65536 / 262144 % 64 < 64 := Nat.mod_lt _ (by decide)
    have h1 : b0.val * 65536 / 4096 % 64 < 64 := Nat.mod_lt _ (by decide)
    simp only [EncodeToString, alphabetCount_encodeChar_cons h0,
      alphabetCount_encodeChar_cons h1, List.length_cons, List.length_nil]
    omega
  | [b0, b1] => by
    have h0 : (b0.val * 65536 + b1.val * 256) / 262144 % 64 < 64 := Nat.mod_lt _ (by decide)
    have h1 : (b0.val * 65536 + b1.val * 256) / 4096 % 64 < 64 := Nat.mod_lt _ (by decide)
    have h2 : (b0.val * 65536 + b1.val * 256) / 64 % 64 < 64 := Nat.mod_lt _ (by decide)
    simp only [EncodeToString, alphabetCount_encodeChar_cons h0,
      alphabetCount_encodeChar_cons h1, alphabetCount_encodeChar_cons h2, List.length_cons,
      List.length_nil]
    omega
  | b0 :: b1 :: b2 :: rest => by
    have h0 : (b0.val * 65536 + b1.val * 256 + b2.val) / 262144 % 64 < 64 :=
      Nat.mod_lt _ (by decide)
    have h1 : (b0.val * 65536 + b1.val * 256 + b2.val) / 4096 % 64 < 64 :=
      Nat.mod_lt _ (by decide)
    have h2 : (b0.val * 65536 + b1.val * 256 + b2.val) / 64 % 64 < 64 :=
      Nat.mod_lt _ (by decide)
    have h3 : (b0.val * 65536 + b1.val * 256 + b2.val) % 64 < 64 := Nat.mod_lt _ (by decide)
    have ih := alphabetCount_EncodeToString rest
    simp only [EncodeToString, alphabetCount_encodeChar_cons h0,
      alphabetCount_encodeChar_cons h1, alphabetCount_encodeChar_cons h2,
      alphabetCount_encodeChar_cons h3, List.length_cons]
    omega

/-- Altering one byte of a string removes at most one alphabet character. -/
theorem alphabetCount_flipBit :
    ∀ (s : Bytes) (i k : Nat), alphabetCount s ≤ alphabetCount (flipBit s i k) + 1
  | [], _, _ => by simp [flipBit, alphabetCount]
  | b :: bs, 0, k => by
    simp only [flipBit, alphabetCount]
    split <;> split <;> omega
  | b :: bs, i + 1, k => by
    have := alphabetCount_flipBit bs i k
    simp only [flipBit, alphabetCount]
    omega

/-- A string that differs in one byte from the encoding of `e` decodes, if at all, to at
least `e.length - 1` bytes. -/
theorem DecodeString_flipBit_length (e b : Bytes) (i k : Nat)
    (h : DecodeString (flipBit (EncodeToString e) i k) = .ok b) :
    e.length ≤ b.length + 1 := by
  have h1 := decodeLoop_length _ 0 0 0 [] b (Nat.zero_le 3) h
  have h2 := alphabetCount_EncodeToString e
  have h3 := alphabetCount_flipBit (EncodeToString e) i k
  simp only [List.length_nil] at h1
  omega

theorem Encrypt_ok_encrypted {gcm : Bytes → AEAD} {cs : CryptoService} {rand P env : Bytes}
    (h : Encrypt gcm cs rand P = .ok env) :
    aesKeySize cs.key.length = true ∧ (rand.take 12).length = 12 ∧
      env = EncodeToString (rand.take 12 ++ (gcm cs.key).Seal (rand.take 12) P) := by
  unfold Encrypt at h
  cases hk : aesKeySize cs.key.length
  · simp [hk] at h
  · simp only [hk, if_true] at h
    unfold readFull at h
    by_cases hr : rand.length < 12
    · simp [hr] at h
    · rw [if_neg hr] at h
      simp only at h
      exact ⟨rfl, by simp; omega, (Except.ok.inj h).symm⟩

theorem Decrypt_of_decoded {gcm : Bytes → AEAD} {cs : CryptoService} {s b : Bytes}
    (hd : DecodeString s = .ok b) (hlen : 12 ≤ b.length)
    (hk : aesKeySize cs.key.length = true) :
    Decrypt gcm cs s =
      match (gcm cs.key).Open (b.take 12) (b.drop 12) with
      | none => .error .openFailed
      | some plaintext => .ok plaintext := by
  unfold Decrypt
  simp only [hd, hk, if_true]
  rw [if_neg (by omega)]

/-- C8 (amended): let `env` be an envelope string produced by `Encrypt`, with one bit flipped
at any position.  Provided the AEAD opens what it sealed here, its output carries the 16
byte tag, and it rejects the nonce and ciphertext that the altered string decodes to
whenever they differ from the sealed ones (its authentication), `Decrypt` of the altered
string (1) fails with the base64 decode error when the altered string is not valid base64,
(2) fails with the authentication failure when the altered string decodes to other bytes,
(3) returns the original plaintext when the altered string decodes to the same bytes (a
flip confined to bits the decoder drops), and does nothing else; (4) a flip of the top bit
of a character always ends in the decode error; (5) a plaintext other than the original
one is never returned. -/
theorem C8_tampered_envelope (gcm : Bytes → AEAD) (cs : CryptoService)
    (rand P env : Bytes) (i k : Nat)
    (henc : Encrypt gcm cs rand P = .ok env)
    (hopen : (gcm cs.key).Open (rand.take 12) ((gcm cs.key).Seal (rand.take 12) P) = some P)
    (htag : 16 ≤ ((gcm cs.key).Seal (rand.take 12) P).length)
    (hauth : ∀ b, DecodeString (flipBit env i k) = .ok b →
      b ≠ rand.take 12 ++ (gcm cs.key).Seal (rand.take 12) P →
      (gcm cs.key).Open (b.take 12) (b.drop 12) = none)
    (hi : i < env.length) :
    ((∃ off, DecodeString (flipBit env i k) = .error off ∧
        Decrypt gcm cs (flipBit env i k) = .error (.corruptInput off)) ∨
      (∃ b, DecodeString (flipBit env i k) = .ok b ∧
        b ≠ rand.take 12 ++ (gcm cs.key).Seal (rand.take 12) P ∧
        Decrypt gcm cs (flipBit env i k) = .error .openFailed) ∨
      (DecodeString (flipBit env i k) = DecodeString env ∧
        Decrypt gcm cs (flipBit env i k) = .ok P)) ∧
    (k = 7 → ∃ off, Decrypt gcm cs (flipBit env i k) = .error (.corruptInput off)) ∧
    (∀ p, Decrypt gcm cs (flipBit env i k) = .ok p → p = P) := by
  obtain ⟨hk, hnonce, henv⟩ := Encrypt_ok_encrypted henc
  have hdec : DecodeString env =
      .ok (rand.take 12 ++ (gcm cs.key).Seal (rand.take 12) P) := by
    rw [henv]; exact DecodeString_EncodeToString _
  have htake : List.take 12 (rand.take 12 ++ (gcm cs.key).Seal (rand.take 12) P) =
      rand.take 12 := by
    rw [List.take_append_of_le_length (by omega)]
    exact List.take_of_length_le (by omega)
  have hdrop : List.drop 12 (rand.take 12 ++ (gcm cs.key).Seal (rand.take 12) P) =
      (gcm cs.key).Seal (rand.take 12) P := by
    rw [List.drop_append_of_le_length (by omega)]
    rw [List.drop_of_length_le (by omega)]
    rfl
  have hmain : (∃ off, DecodeString (flipBit env i k) = .error off ∧
        Decrypt gcm cs (flipBit env i k) = .error (.corruptInput off)) ∨
      (∃ b, DecodeString (flipBit env i k) = .ok b ∧
        b ≠ rand.take 12 ++ (gcm cs.key).Seal (rand.take 12) P ∧
        Decrypt gcm cs (flipBit env i k) = .error .openFailed) ∨
      (DecodeString (flipBit env i k) = DecodeString env ∧
        Decrypt gcm cs (flipBit env i k) = .ok P) := by
    cases hd : DecodeString (flipBit env i k) with
    | error off => exact Or.inl ⟨off, rfl, Decrypt_of_decode_error hd⟩
    | ok b =>
      have hlen : 12 ≤ b.length := by
        have hd1 := hd
        rw [henv] at hd1
        have := DecodeString_flipBit_length _ b i k hd1
        simp only [List.length_append, hnonce] at this
        omega
      have hD := @Decrypt_of_decoded gcm cs _ _ hd hlen hk
      by_cases hb : b = rand.take 12 ++ (gcm cs.key).Seal (rand.take 12) P
      · refine Or.inr (Or.inr ⟨by rw [hdec, hb], ?_⟩)
        rw [hD, hb, htake, hdrop, hopen]
      · refine Or.inr (Or.inl ⟨b, rfl, hb, ?_⟩)
        rw [hD, hauth b hd hb]
  refine ⟨hmain, ?_, ?_⟩
  · intro hk7
    subst hk7
    obtain ⟨off, hoff⟩ := DecodeString_high (flipBit env i 7)
      (flipBit_high _ i hi (henv ▸ EncodeToString_low _))
    exact ⟨off, Decrypt_of_decode_error hoff⟩
  · intro p hp
    rcases hmain with ⟨off, _, h⟩ | ⟨b, _, _, h⟩ | ⟨_, h⟩
    · rw [h] at hp; cases hp
    · rw [h] at hp; cases hp
    · rw [h] at hp; exact (Except.ok.inj hp).symm

set_option maxRecDepth 100000 in
/-- C8, at a concrete envelope of AES-GCM: bit 0 of character 17 is flipped (`W` becomes
`V`); the string is still base64 and decodes to the nonce with an altered tag, AES-GCM
rejects them, and `Decrypt` fails with the authentication failure. -/
theorem C8_tampered_envelope_witness :
    Decrypt aesGCM exKey (flipBit exEnvelope 17 0) = .error .openFailed :=
  have hd : DecodeString (flipBit exEnvelope 17 0) =
      .ok (Except.toOption (DecodeString (flipBit exEnvelope 17 0))).get! := rfl
  have hd0 : DecodeString exEnvelope =
      .ok (Except.toOption (DecodeString exEnvelope)).get! := rfl
  have h := (C8_tampered_envelope aesGCM exKey exRand [] exEnvelope 17 0 rfl rfl
    (by decide)
    (fun b hb _ => by
      obtain rfl := Except.ok.inj (hb.symm.trans hd)
      rfl)
    (by decide)).1
  h.elim (fun ⟨_, h1, _⟩ => absurd (h1.symm.trans hd) (by simp))
    (fun h2 => h2.elim (fun ⟨_, _, _, h3⟩ => h3)
      (fun ⟨h4, _⟩ => absurd (Except.ok.inj ((hd.symm.trans h4).trans hd0)) (by decide)))

set_option maxRecDepth 100000 in
/-- C8 as stated fails: `exEnvelope` is what `Encrypt` returns with AES-GCM; with the top bit
of its first character flipped, `Decrypt` fails with the decode error, not with the error
of the AEAD open step; with bit 3 of character 37 flipped (`g` becomes `o`, which differs
only in bits the decoder drops), `Decrypt` succeeds and returns the plaintext. -/
theorem C8_bit_flip_counterexample :
    Encrypt aesGCM exKey exRand [] = .ok exEnvelope ∧
    Decrypt aesGCM exKey (flipBit exEnvelope 0 7) = .error (.corruptInput 0) ∧
    CryptoError.corruptInput 0 ≠ CryptoError.openFailed ∧
    flipBit exEnvelope 37 3 = ascii "AQIDBAUGBwgJCgsMBWAQZOWALEv1IRZBReQxho==" ∧
    Decrypt aesGCM exKey (flipBit exEnvelope 37 3) = .ok [] := by
  refine ⟨rfl, rfl, by decide, by decide, rfl⟩

/-- C9: for every input string and every key, valid or not: when `DecodeString` rejects the
string, `Decrypt` fails with that decode error; when the string decodes to fewer than 12
bytes, `Decrypt` fails with "ciphertext too short"; in both cases no plaintext is
returned. -/
theorem C9_decrypt_rejects (gcm : Bytes → AEAD) (cs : CryptoService) (s : Bytes) :
    (∀ off, DecodeString s = .error off → Decrypt gcm cs s = .error (.corruptInput off)) ∧
    (∀ b, DecodeString s = .ok b → b.length < 12 → Decrypt gcm cs s = .error .tooShort) := by
  constructor
  · intro off h
    exact Decrypt_of_decode_error h
  · intro b h hlen
    simp [Decrypt, h, hlen]

/-- C9, at concrete strings, with a key of a size AES does not accept: `!!!!` is not
base64, and `QUJD` decodes to the three bytes `ABC`. -/
theorem C9_decrypt_rejects_witness :
    Decrypt exGCM (NewCryptoService []) (ascii "!!!!") = .error (.corruptInput 0) ∧
    Decrypt exGCM (NewCryptoService []) (ascii "QUJD") = .error .tooShort :=
  ⟨(C9_decrypt_rejects exGCM (NewCryptoService []) (ascii "!!!!")).1 0 rfl,
   (C9_decrypt_rejects exGCM (NewCryptoService []) (ascii "QUJD")).2 (ascii "ABC") rfl
     (by decide)⟩

/-! ## In-order application within a batch -/

theorem syncItems_append (f : Faults) (userID : Int) :
    ∀ (xs ys : List FileMetadata) (i : Nat) (tbl : List FileMetadata),
      syncItems f userID i (xs ++ ys) tbl =
        match syncItems f userID i xs tbl with
        | .error e => .error e
        | .ok t => syncItems f userID (i + xs.length) ys t := by
  intro xs
  induction xs with
  | nil => intro ys i tbl; simp [syncItems]
  | cons c cs ih =>
    intro ys i tbl
    have hidx : i + (c :: cs).length = i + 1 + cs.length := by simp; omega
    rw [hidx]
    simp only [List.cons_append]
    rw [syncItems, syncItems]
    cases queryRow (f (.select i)) tbl c.ID userID with
    | errNoRows =>
      simp only
      cases insertItem (f (.insert i)) tbl
          { ID := c.ID, EncryptedData := c.EncryptedData, UserID := userID,
            Version := c.Version, LastModifiedAt := c.LastModifiedAt,
            IsDeleted := c.IsDeleted } with
      | none => rfl
      | some tbl1 => exact ih ys (i + 1) tbl1
    | err => rfl
    | row s =>
      simp only
      split
      · cases updateItem (f (.update i)) tbl c.EncryptedData c.Version c.LastModifiedAt
            c.IsDeleted c.ID userID with
        | none => rfl
        | some tbl1 => exact ih ys (i + 1) tbl1
      · exact ih ys (i + 1) tbl

theorem syncItems_noFaults_index (userID : Int) :
    ∀ (items : List FileMetadata) (i j : Nat) (tbl : List FileMetadata),
      syncItems noFaults userID i items tbl = syncItems noFaults userID j items tbl := by
  intro items
  induction items with
  | nil => intro i j tbl; simp [syncItems]
  | cons c cs ih =>
    intro i j tbl
    rw [syncItems, syncItems]
    simp only [noFaults]
    cases queryRow false tbl c.ID userID with
    | errNoRows =>
      simp only
      cases insertItem false tbl
          { ID := c.ID, EncryptedData := c.EncryptedData, UserID := userID,
            Version := c.Version, LastModifiedAt := c.LastModifiedAt,
            IsDeleted := c.IsDeleted } with
      | none => rfl
      | some tbl1 => exact ih (i + 1) (j + 1) tbl1
    | err => rfl
    | row s =>
      simp only
      split
      · cases updateItem false tbl c.EncryptedData c.Version c.LastModifiedAt
            c.IsDeleted c.ID userID with
        | none => rfl
        | some tbl1 => exact ih (i + 1) (j + 1) tbl1
      · exact ih (i + 1) (j + 1) tbl

/-- Without driver failures, the loop over `xs ++ ys` is the loop over `xs` followed by the
loop over `ys` on the table the first one leaves. -/
theorem syncItems_noFaults_append (userID : Int) (xs ys tbl : List FileMetadata) :
    syncItems noFaults userID 0 (xs ++ ys) tbl =
      match syncItems noFaults userID 0 xs tbl with
      | .error e => .error e
      | .ok t => syncItems noFaults userID 0 ys t := by
  rw [syncItems_append]
  cases syncItems noFaults userID 0 xs tbl with
  | error e => rfl
  | ok t => exact syncItems_noFaults_index userID ys _ _ t

/-- C11: (1) the loop over `xs ++ ys` applies `xs` first and then `ys` to the table the
prefix leaves, stopping at the first failure; (2) a later item with the id of an earlier
one is compared against the version the earlier item stored: for an id that is new to the
table, the batch `[c1, c2]` stores `c2` if `c2.Version > c1.Version` and `c1` otherwise;
(3) when no store call fails, if a sync of `xs` and then a sync of `ys` succeed, the sync
of `xs ++ ys` succeeds, leaves the same rows and returns the same `UpdatedItems` and
`DeletedIDs` as the second of them; (4) and conversely, if the sync of `xs ++ ys`
succeeds, so do the sync of `xs` and then the sync of `ys`, with the same rows and
lists. -/
theorem C11_in_order_application :
    (∀ (f : Faults) (userID : Int) (i : Nat) (xs ys tbl : List FileMetadata),
      syncItems f userID i (xs ++ ys) tbl =
        match syncItems f userID i xs tbl with
        | .error e => .error e
        | .ok t => syncItems f userID (i + xs.length) ys t) ∧
    (∀ (db : DB) (owner : Int) (c1 c2 : FileMetadata) (dev tok : String) (now : Time),
      c1.ID = c2.ID → (∀ x ∈ db.file_metadata, x.ID ≠ c1.ID) →
      (SyncMetadata noFaults db owner (some ⟨dev, [c1, c2], tok⟩) now).1.file_metadata =
        db.file_metadata ++
          [if c2.Version > c1.Version then clientRow owner c2 else clientRow owner c1]) ∧
    (∀ (db db1 db2 : DB) (owner : Int) (xs ys : List FileMetadata)
        (dev1 dev2 dev tok1 tok2 tok : String) (now1 now2 now : Time) (r1 r2 : SyncResponse),
      SyncMetadata noFaults db owner (some ⟨dev1, xs, tok1⟩) now1 = (db1, .ok r1) →
      SyncMetadata noFaults db1 owner (some ⟨dev2, ys, tok2⟩) now2 = (db2, .ok r2) →
      ∃ db3 r3, SyncMetadata noFaults db owner (some ⟨dev, xs ++ ys, tok⟩) now =
          (db3, .ok r3) ∧
        db3.file_metadata = db2.file_metadata ∧ r3.UpdatedItems = r2.UpdatedItems ∧
        r3.DeletedIDs = r2.DeletedIDs) ∧
    (∀ (db db3 : DB) (owner : Int) (xs ys : List FileMetadata)
        (dev1 dev2 dev tok1 tok2 tok : String) (now1 now2 now : Time) (r3 : SyncResponse),
      SyncMetadata noFaults db owner (some ⟨dev, xs ++ ys, tok⟩) now = (db3, .ok r3) →
      ∃ db1 r1 db2 r2,
        SyncMetadata noFaults db owner (some ⟨dev1, xs, tok1⟩) now1 = (db1, .ok r1) ∧
        SyncMetadata noFaults db1 owner (some ⟨dev2, ys, tok2⟩) now2 = (db2, .ok r2) ∧
        db3.file_metadata = db2.file_metadata ∧ r3.UpdatedItems = r2.UpdatedItems ∧
        r3.DeletedIDs = r2.DeletedIDs) := by
  refine ⟨fun f userID i xs ys tbl => syncItems_append f userID xs ys i tbl, ?_, ?_, ?_⟩
  · intro db owner c1 c2 dev tok now hid hfresh
    have hnone : selectItem db.file_metadata c1.ID owner = none := by
      unfold selectItem
      rw [List.find?_eq_none]
      intro x hx hm
      exact hfresh x hx ((matchesKey_iff _ _ _).1 hm).1
    have hany : (db.file_metadata.any fun x => decide (x.ID = c1.ID)) = false := by
      rw [List.any_eq_false]
      intro x hx
      simpa using hfresh x hx
    have hsel : selectItem (db.file_metadata ++ [clientRow owner c1]) c2.ID owner =
        some (clientRow owner c1) := by
      rw [← hid]
      unfold selectItem
      rw [List.find?_append]
      unfold selectItem at hnone
      rw [hnone]
      simp [matchesKey, clientRow]
    have hmap : (db.file_metadata ++ [clientRow owner c1]).map
        (overwrite c2.EncryptedData c2.Version c2.LastModifiedAt c2.IsDeleted c2.ID owner) =
        db.file_metadata ++ [clientRow owner c2] := by
      rw [List.map_append]
      congr 1
      · conv_rhs => rw [← List.map_id db.file_metadata]
        apply List.map_congr_left
        intro x hx
        exact overwrite_of_ne _ _ _ _ _ _ _ (fun h => hfresh x hx (h.1.trans hid.symm))
      · simp [overwrite, matchesKey, clientRow, hid]
    have hloop : syncItems noFaults owner 0 (SyncRequest.mk dev [c1, c2] tok).Items
        db.file_metadata = .ok (db.file_metadata ++
          [if c2.Version > c1.Version then clientRow owner c2 else clientRow owner c1]) := by
      have hstep1 : queryRow false db.file_metadata c1.ID owner = .errNoRows := by
        simp [queryRow, hnone]
      have hins : insertItem false db.file_metadata (clientRow owner c1) =
          some (db.file_metadata ++ [clientRow owner c1]) := by
        simp [insertItem, hany, clientRow]
      have hstep2 : queryRow false (db.file_metadata ++ [clientRow owner c1]) c2.ID owner =
          .row (clientRow owner c1) := by
        simp [queryRow, hsel]
      have hupd : updateItem false (db.file_metadata ++ [clientRow owner c1])
          c2.EncryptedData c2.Version c2.LastModifiedAt c2.IsDeleted c2.ID owner =
          some (db.file_metadata ++ [clientRow owner c2]) := by
        rw [← hmap]
        simp only [updateItem, Bool.false_eq_true, if_false, Option.some.injEq]
        apply List.map_congr_left
        intro r _
        rfl
      show syncItems noFaults owner 0 [c1, c2] db.file_metadata = _
      rw [syncItems]
      simp only [noFaults, hstep1]
      change (match insertItem false db.file_metadata (clientRow owner c1) with
        | none => (Except.error ⟨500, "Failed to insert client item"⟩ :
            Except HttpError (List FileMetadata))
        | some tbl1 => syncItems (fun _ => false) owner (0 + 1) [c2] tbl1) = _
      rw [hins]
      simp only
      rw [syncItems]
      simp only [hstep2]
      have hv : (clientRow owner c1).Version = c1.Version := rfl
      rw [hv]
      by_cases hgt : c2.Version > c1.Version
      · rw [if_pos hgt, if_pos hgt, hupd]
        simp [syncItems]
      · rw [if_neg hgt, if_neg hgt]
        simp [syncItems]
    rw [SyncMetadata_noFaults hloop]
  · intro db db1 db2 owner xs ys dev1 dev2 dev tok1 tok2 tok now1 now2 now r1 r2 h1 h2
    obtain ⟨t1, hi1, rfl, rfl⟩ := SyncMetadata_ok_complete noFaults_next h1
    obtain ⟨t2, hi2, rfl, rfl⟩ := SyncMetadata_ok_complete noFaults_next h2
    have hloop : syncItems noFaults owner 0 (SyncRequest.mk dev (xs ++ ys) tok).Items
        db.file_metadata = .ok t2 := by
      show syncItems noFaults owner 0 (xs ++ ys) db.file_metadata = _
      rw [syncItems_noFaults_append]
      have hi1a : syncItems noFaults owner 0 xs db.file_metadata = .ok t1 := hi1
      rw [hi1a]
      exact hi2
    exact ⟨_, _, SyncMetadata_noFaults hloop, rfl, rfl, rfl⟩
  · intro db db3 owner xs ys dev1 dev2 dev tok1 tok2 tok now1 now2 now r3 h3
    obtain ⟨t3, hi3, rfl, rfl⟩ := SyncMetadata_ok_complete noFaults_next h3
    have hi3a : syncItems noFaults owner 0 (xs ++ ys) db.file_metadata = .ok t3 := hi3
    rw [syncItems_noFaults_append] at hi3a
    cases hx : syncItems noFaults owner 0 xs db.file_metadata with
    | error e => rw [hx] at hi3a; cases hi3a
    | ok t1 =>
      rw [hx] at hi3a
      have hl1 : syncItems noFaults owner 0 (SyncRequest.mk dev1 xs tok1).Items
          db.file_metadata = .ok t1 := hx
      have hl2 : syncItems noFaults owner 0 (SyncRequest.mk dev2 ys tok2).Items
          (DB.mk (stampUser db.users now1 owner) t1).file_metadata = .ok t3 := hi3a
      exact ⟨_, _, _, _, SyncMetadata_noFaults hl1, SyncMetadata_noFaults hl2, rfl, rfl, rfl⟩

/-- C11, at a concrete batch: into a store without records, the batch submits id `a` at
version 2 and then again at version 1; the second item is compared against the version 2
the first one stored, and is dropped. -/
theorem C11_in_order_application_witness :
    (SyncMetadata noFaults exEmptyDB 1
        (some ⟨"dev1", [⟨"a", "E1", 0, 2, 10, false⟩, ⟨"a", "E2", 0, 1, 11, false⟩], ""⟩)
        5).1.file_metadata = [⟨"a", "E1", 1, 2, 10, false⟩] :=
  C11_in_order_application.2.1 exEmptyDB 1 ⟨"a", "E1", 0, 2, 10, false⟩
    ⟨"a", "E2", 0, 1, 11, false⟩ "dev1" "" 5 rfl (by decide)

/-! ## Strictly positive versions -/

theorem SyncStep.positive {userID : Int} {c : FileMetadata} {tbl tbl1 : List FileMetadata}
    (h : SyncStep userID c tbl tbl1) (hc : 1 ≤ c.Version) (hpos : AllPositive tbl) :
    AllPositive tbl1 := by
  rcases h with ⟨_, _, rfl⟩ | ⟨s, _, _, rfl⟩ | ⟨s, _, _, rfl⟩
  · intro r hr
    rcases List.mem_append.1 hr with hr | hr
    · exact hpos r hr
    · simp only [List.mem_singleton] at hr
      subst hr
      exact hc
  · intro r hr
    obtain ⟨x, hx, rfl⟩ := List.mem_map.1 hr
    unfold overwrite
    split
    · exact hc
    · exact hpos x hx
  · exact hpos

theorem SyncMetadata_positive (f : Faults) (db : DB) (userID : Int)
    (body : Option SyncRequest) (now : Time)
    (hitems : ∀ req, body = some req → ∀ c ∈ req.Items, 1 ≤ c.Version)
    (hpos : AllPositive db.file_metadata) :
    AllPositive (SyncMetadata f db userID body now).1.file_metadata := by
  rcases SyncMetadata_cases f db userID body now with h | ⟨req, resp, hb, h⟩
  · rw [h]; exact hpos
  · obtain ⟨tbl, hi, hdb, _⟩ := SyncMetadata_ok h
    rw [hdb]
    exact syncItems_induct AllPositive req.Items
      (fun c hc _ _ hs hP => hs.positive (hitems req hb c hc) hP) 0 _ _ hi hpos

theorem AddMetadata_positive (f : Faults) (db : DB) (userID : Int)
    (body : Option FileMetadata) (newID : String) (now : Time)
    (hpos : AllPositive db.file_metadata) :
    AllPositive (AddMetadata f db userID body newID now).1.file_metadata := by
  unfold AddMetadata
  cases body with
  | none => exact hpos
  | some item =>
    simp only
    cases hi : insertItem (f (.insert 0)) db.file_metadata
        { item with UserID := userID, ID := newID, Version := 1, LastModifiedAt := now,
                    IsDeleted := false } with
    | none => exact hpos
    | some tbl =>
      simp only
      rw [(insertItem_some hi).2.2]
      intro r hr
      rcases List.mem_append.1 hr with hr | hr
      · exact hpos r hr
      · simp only [List.mem_singleton] at hr
        subst hr
        exact le_refl _

theorem UpdateMetadata_positive (f : Faults) (db : DB) (userID : Int) (id : String)
    (body : Option FileMetadata) (now : Time)
    (hrange : ∀ r, selectItem db.file_metadata id userID = some r → r.Version < 2 ^ 63 - 1)
    (hpos : AllPositive db.file_metadata) :
    AllPositive (UpdateMetadata f db userID id body now).1.file_metadata := by
  unfold UpdateMetadata
  cases body with
  | none => exact hpos
  | some item =>
    simp only
    cases hq : queryRow (f (.select 0)) db.file_metadata id userID with
    | errNoRows => exact hpos
    | err => exact hpos
    | row cur =>
      simp only
      cases hu : updateItem (f (.update 0)) db.file_metadata item.EncryptedData
          (wrapInt64 (cur.Version + 1)) now item.IsDeleted id userID with
      | none => exact hpos
      | some tbl =>
        simp only
        rw [(updateItem_some hu).2]
        have hcur := (queryRow_row hq).2
        have h1 : 1 ≤ cur.Version := hpos cur (selectItem_some hcur).1
        have hw : wrapInt64 (cur.Version + 1) = cur.Version + 1 :=
          wrapInt64_succ (by omega) (hrange cur hcur)
        intro r hr
        obtain ⟨x, hx, rfl⟩ := List.mem_map.1 hr
        unfold overwrite
        split
        · simp only [hw]; omega
        · exact hpos x hx

theorem DeleteMetadata_positive (f : Faults) (db : DB) (userID : Int) (id : String)
    (now : Time)
    (hrange : ∀ r, selectItem db.file_metadata id userID = some r → r.Version < 2 ^ 63 - 1)
    (hpos : AllPositive db.file_metadata) :
    AllPositive (DeleteMetadata f db userID id now).1.file_metadata := by
  unfold DeleteMetadata
  cases hq : queryRow (f (.select 0)) db.file_metadata id userID with
  | errNoRows => exact hpos
  | err => exact hpos
  | row cur =>
    simp only
    cases hu : tombstoneItem (f (.update 0)) db.file_metadata (wrapInt64 (cur.Version + 1))
        now true id userID with
    | none => exact hpos
    | some tbl =>
      simp only
      have hcur := (queryRow_row hq).2
      have h1 : 1 ≤ cur.Version := hpos cur (selectItem_some hcur).1
      have hw : wrapInt64 (cur.Version + 1) = cur.Version + 1 :=
        wrapInt64_succ (by omega) (hrange cur hcur)
      unfold tombstoneItem at hu
      cases hf : f (.update 0)
      · simp only [hf, Bool.false_eq_true, if_false, Option.some.injEq] at hu
        rw [← hu]
        intro r hr
        obtain ⟨x, hx, rfl⟩ := List.mem_map.1 hr
        split
        · simp only [hw]; omega
        · exact hpos x hx
      · simp [hf] at hu

theorem Call.run_positive (db : DB) (c : Call) (hr : c.inRange db = true)
    (hpos : AllPositive db.file_metadata) : AllPositive (c.run db).file_metadata := by
  cases c with
  | add f userID body newID now => exact AddMetadata_positive f db userID body newID now hpos
  | update f userID id body now =>
    refine UpdateMetadata_positive f db userID id body now ?_ hpos
    intro r hsel
    simp only [Call.inRange, hsel, decide_eq_true_eq] at hr
    exact hr
  | delete f userID id now =>
    refine DeleteMetadata_positive f db userID id now ?_ hpos
    intro r hsel
    simp only [Call.inRange, hsel, decide_eq_true_eq] at hr
    exact hr
  | sync f userID body now =>
    refine SyncMetadata_positive f db userID body now ?_ hpos
    intro req hb c hc
    subst hb
    simp only [Call.inRange, List.all_eq_true, decide_eq_true_eq] at hr
    exact hr c hc

theorem runCalls_positive :
    ∀ (calls : List Call) (db : DB), allInRange db calls = true →
      AllPositive db.file_metadata → AllPositive (runCalls db calls).file_metadata := by
  intro calls
  induction calls with
  | nil => intro db _ hpos; exact hpos
  | cons c cs ih =>
    intro db hr hpos
    simp only [allInRange, Bool.and_eq_true] at hr
    exact ih (c.run db) hr.2 (Call.run_positive db c hr.1 hpos)

/-- C12 (amended): (1) starting from a store without records, after every sequence of
`AddMetadata`, `UpdateMetadata`, `DeleteMetadata` and `SyncMetadata` calls in which every
item submitted to a sync has a version of at least 1 and no update or delete addresses a
row whose version is the largest `int`, every stored row has a version of at least 1;
(2) when no store call fails, a sync of a single item whose id no row carries stores the
item with the client's version and id as they are, whatever the sign of the version and
also when the id is empty. -/
theorem C12_positive_versions :
    (∀ (users : List User) (calls : List Call),
      allInRange { users := users, file_metadata := [] } calls = true →
      ∀ r ∈ (runCalls { users := users, file_metadata := [] } calls).file_metadata,
        1 ≤ r.Version) ∧
    (∀ (db : DB) (owner : Int) (req : SyncRequest) (c : FileMetadata) (now : Time),
      req.Items = [c] → (∀ x ∈ db.file_metadata, x.ID ≠ c.ID) →
      (SyncMetadata noFaults db owner (some req) now).1.file_metadata =
        db.file_metadata ++ [clientRow owner c]) := by
  constructor
  · intro users calls hr
    exact runCalls_positive calls _ hr (fun r hmem => by simp at hmem)
  · intro db owner req c now hreq hfresh
    obtain ⟨⟨resp, h⟩, _⟩ := SyncMetadata_insert_fresh db owner req c now hreq hfresh
    rw [h]

/-- C12, at a concrete sequence: a sync creates `a` at version 1, a delete and an update
raise it, and an add creates `b`. -/
theorem C12_positive_versions_witness :
    ∀ r ∈ (runCalls { users := [], file_metadata := [] }
        [Call.sync noFaults 1 (some (exReq [⟨"a", "E", 0, 1, 10, false⟩])) 20,
         Call.delete noFaults 1 "a" 21,
         Call.update noFaults 1 "a" (some ⟨"", "E2", 0, 0, 0, false⟩) 22,
         Call.add noFaults 1 (some ⟨"", "E3", 0, 0, 0, false⟩) "b" 23]).file_metadata,
      1 ≤ r.Version :=
  C12_positive_versions.1 [] _ rfl

/-- C12 as stated fails: a sync into a store without records with an item of version 0
and an item of version -5 without id succeeds and stores both items as they are. -/
theorem C12_nonpositive_counterexample :
    SyncMetadata noFaults exEmptyDB 1
        (some (exReq [⟨"a", "E", 0, 0, 10, false⟩, ⟨"", "E", 0, -5, 11, false⟩])) 5 =
      ({ users := [⟨1, "ann", "h1", "dev1", 0, 5⟩],
         file_metadata := [⟨"a", "E", 1, 0, 10, false⟩, ⟨"", "E", 1, -5, 11, false⟩] },
       .ok { UpdatedItems := [⟨"a", "E", 1, 0, 10, false⟩, ⟨"", "E", 1, -5, 11, false⟩],
             DeletedIDs := [], SyncToken := "sync_token_1", Timestamp := 5 }) ∧
    ¬ AllPositive [⟨"a", "E", 1, 0, 10, false⟩, ⟨"", "E", 1, -5, 11, false⟩] := by
  refine ⟨rfl, ?_⟩
  intro h
  exact absurd (h ⟨"a", "E", 1, 0, 10, false⟩ (List.mem_cons_self _ _)) (by decide)

/-! ## The supplied token is not read -/

/-- C13: two sync requests with the same items, whatever their `SyncToken` and `DeviceID`
fields, have the same outcome: the same database afterwards and the same answer (status,
`UpdatedItems`, `DeletedIDs`), under the same store behaviour and clock; so no value of the
supplied token makes a call fail that succeeds with another one. -/
theorem C13_token_advisory (f : Faults) (db : DB) (owner : Int) (req1 req2 : SyncRequest)
    (now : Time) (hitems : req1.Items = req2.Items) :
    SyncMetadata f db owner (some req1) now = SyncMetadata f db owner (some req2) now := by
  cases req1 with
  | mk dev1 items1 tok1 =>
    cases req2 with
    | mk dev2 items2 tok2 =>
      simp only at hitems
      subst hitems
      rfl

/-- C13, at two concrete requests that differ in token and device. -/
theorem C13_token_advisory_witness :
    SyncMetadata noFaults exDB 1 (some ⟨"dev1", [⟨"X", "E4", 0, 4, 20, true⟩], ""⟩) 30 =
      SyncMetadata noFaults exDB 1
        (some ⟨"dev9", [⟨"X", "E4", 0, 4, 20, true⟩], "sync_token_999"⟩) 30 :=
  C13_token_advisory noFaults exDB 1 _ _ 30 rfl

/-! ## Shape of the issued token -/

theorem decimal_foldl_shift :
    ∀ (cs : List Char) (a : Nat),
      cs.foldl (fun a c => a * 10 + (c.toNat - 48)) a =
        a * 10 ^ cs.length + cs.foldl (fun a c => a * 10 + (c.toNat - 48)) 0 := by
  intro cs
  induction cs with
  | nil => intro a; simp
  | cons c cs ih =>
    intro a
    simp only [List.foldl_cons, List.length_cons]
    rw [ih (a * 10 + (c.toNat - 48)), ih (0 * 10 + (c.toNat - 48))]
    ring

theorem decimalValue_cons (c : Char) (cs : List Char) :
    decimalValue (c :: cs) = (c.toNat - 48) * 10 ^ cs.length + decimalValue cs := by
  unfold decimalValue
  rw [List.foldl_cons, decimal_foldl_shift]
  simp

theorem digitChar_value : ∀ k : Fin 10, (Nat.digitChar k.val).toNat - 48 = k.val := by
  decide

theorem digitChar_ne_minus : ∀ k : Fin 10, Nat.digitChar k.val ≠ '-' := by
  decide

theorem toDigitsCore_value :
    ∀ (fuel n : Nat) (ds : List Char), n < fuel →
      decimalValue (Nat.toDigitsCore 10 fuel n ds) = n * 10 ^ ds.length + decimalValue ds := by
  intro fuel
  induction fuel with
  | zero => intro n ds h; omega
  | succ fuel ih =>
    intro n ds h
    rw [Nat.toDigitsCore]
    have hd : (Nat.digitChar (n % 10)).toNat - 48 = n % 10 :=
      digitChar_value ⟨n % 10, Nat.mod_lt _ (by decide)⟩
    by_cases h0 : n / 10 = 0
    · simp only [h0, if_true]
      rw [decimalValue_cons, hd]
      have : n % 10 = n := Nat.mod_eq_of_lt (by omega)
      rw [this]
    · simp only [h0, if_false]
      rw [ih (n / 10) _ (by omega), decimalValue_cons, hd]
      simp only [List.length_cons, pow_succ]
      have hn : n = n / 10 * 10 + n % 10 := by omega
      conv_rhs => rw [hn]
      ring

theorem toDigitsCore_no_minus :
    ∀ (fuel n : Nat) (ds : List Char), (∀ c ∈ ds, c ≠ '-') →
      ∀ c ∈ Nat.toDigitsCore 10 fuel n ds, c ≠ '-' := by
  intro fuel
  induction fuel with
  | zero => intro n ds h; simpa [Nat.toDigitsCore] using h
  | succ fuel ih =>
    intro n ds h
    rw [Nat.toDigitsCore]
    have hd : Nat.digitChar (n % 10) ≠ '-' :=
      digitChar_ne_minus ⟨n % 10, Nat.mod_lt _ (by decide)⟩
    have hds : ∀ c ∈ Nat.digitChar (n % 10) :: ds, c ≠ '-' := by
      intro c hc
      rcases List.mem_cons.1 hc with rfl | hc
      · exact hd
      · exact h c hc
    by_cases h0 : n / 10 = 0
    · simp only [h0, if_true]; exact hds
    · simp only [h0, if_false]; exact ih _ _ hds

/-- The decimal rendering of a natural number denotes that number. -/
theorem decimalValue_repr (n : Nat) : decimalValue (Nat.repr n).data = n := by
  show decimalValue (Nat.toDigitsCore 10 (n + 1) n []) = n
  rw [toDigitsCore_value _ _ _ (by omega)]
  simp [decimalValue]

theorem repr_no_minus (n : Nat) : ∀ c ∈ (Nat.repr n).data, c ≠ '-' :=
  toDigitsCore_no_minus (n + 1) n [] (fun c hc => by simp at hc)

theorem Nat_repr_injective {m n : Nat} (h : Nat.repr m = Nat.repr n) : m = n := by
  rw [← decimalValue_repr m, ← decimalValue_repr n, h]

/-- The decimal rendering of an integer determines the integer. -/
theorem Int_toString_injective {a b : Int} (h : toString a = toString b) : a = b := by
  cases a with
  | ofNat m =>
    cases b with
    | ofNat n =>
      have : Nat.repr m = Nat.repr n := h
      rw [Nat_repr_injective this]
    | negSucc n =>
      exfalso
      have h1 : Nat.repr m = "-" ++ Nat.repr (n + 1) := h
      have hmem : '-' ∈ (Nat.repr m).data := by
        rw [h1, String.data_append]
        exact List.mem_append_left _ (by decide)
      exact repr_no_minus m '-' hmem rfl
  | negSucc m =>
    cases b with
    | ofNat n =>
      exfalso
      have h1 : "-" ++ Nat.repr (m + 1) = Nat.repr n := h
      have hmem : '-' ∈ (Nat.repr n).data := by
        rw [← h1, String.data_append]
        exact List.mem_append_left _ (by decide)
      exact repr_no_minus n '-' hmem rfl
    | negSucc n =>
      have h1 : "-" ++ Nat.repr (m + 1) = "-" ++ Nat.repr (n + 1) := h
      have h2 : (Nat.repr (m + 1)).data = (Nat.repr (n + 1)).data := by
        have := congrArg String.data h1
        rw [String.data_append, String.data_append] at this
        exact List.append_cancel_left this
      have h3 : m + 1 = n + 1 := Nat_repr_injective (String.ext h2)
      have h4 : m = n := by omega
      rw [h4]

/-- C15: `GenerateSyncToken(u, t)` is the string `sync_token_` followed by the decimal
rendering of `u` (`sync_token_42` for 42, `sync_token_-7` for -7); for a fixed owner it is
the same for every two timestamps; and two different owner ids yield different tokens. -/
theorem C15_token_shape :
    (∀ (u : Int) (t : Time), GenerateSyncToken u t = "sync_token_" ++ toString u) ∧
    (∀ (n : Nat) (t : Time),
      GenerateSyncToken (Int.ofNat n) t = "sync_token_" ++ Nat.repr n ∧
      decimalValue (Nat.repr n).data = n ∧
      GenerateSyncToken (Int.negSucc n) t = "sync_token_" ++ ("-" ++ Nat.repr (n + 1))) ∧
    (GenerateSyncToken 42 0 = "sync_token_42" ∧ GenerateSyncToken (-7) 0 = "sync_token_-7") ∧
    (∀ (u : Int) (t1 t2 : Time), GenerateSyncToken u t1 = GenerateSyncToken u t2) ∧
    (∀ (u1 u2 : Int) (t1 t2 : Time), u1 ≠ u2 →
      GenerateSyncToken u1 t1 ≠ GenerateSyncToken u2 t2) := by
  refine ⟨fun _ _ => rfl, fun n _ => ⟨rfl, decimalValue_repr n, rfl⟩, ⟨by decide, by decide⟩,
    fun _ _ _ => rfl, ?_⟩
  intro u1 u2 t1 t2 hne h
  apply hne
  unfold GenerateSyncToken at h
  have h2 : (toString u1).data = (toString u2).data := by
    have := congrArg String.data h
    rw [String.data_append, String.data_append] at this
    exact List.append_cancel_left this
  exact Int_toString_injective (String.ext h2)

/-- C15, at two concrete owners: the tokens of owner 1 and owner 2 differ. -/
theorem C15_token_shape_witness : GenerateSyncToken 1 10 ≠ GenerateSyncToken 2 10 :=
  C15_token_shape.2.2.2.2 1 2 10 10 (by decide)

end Vault
